import Mathlib

/-!
Shallow embedding of the schema-driven code generator `write_python.py`.

The generator reads a discovery document (a nested string-keyed mapping),
builds a registry of classes (`File.classes`), and emits each class after
its dependencies (`FileWriter.write_class`).  Python dictionaries are
modelled as association lists in insertion order; Python exceptions
(KeyError, ValueError, TypeError, IndexError) are modelled with
`Except String`; the in-place mutation of the input document
(`del discovery_dict['schemas']`) is modelled by returning the mutated
document alongside the build result.
-/

/-- A value inside a discovery document: a string, a boolean, a list of
strings (`enum`, `enumDescriptions`, `parameterOrder`), or a nested
mapping.  Keys are strings; insertion order is the list order. -/
inductive JVal where
  | s (v : String)
  | b (v : Bool)
  | l (vs : List String)
  | d (entries : List (String × JVal))

abbrev Dict := List (String × JVal)

/-- First-match lookup in an association list (Python `d[k]` / `k in d`). -/
def alookup {α : Type} : List (String × α) → String → Option α
  | [], _ => none
  | (k0, v) :: rest, k => if k0 = k then some v else alookup rest k

/-- Python `d[k] = v`: replace in place if the key exists (keeping its
position), otherwise append at the end. -/
def dinsert {α : Type} (m : List (String × α)) (k : String) (v : α) : List (String × α) :=
  if (alookup m k).isSome then m.map (fun p => if p.1 = k then (k, v) else p)
  else m ++ [(k, v)]

/-- Python `del d[k]`. -/
def eraseKey {α : Type} (m : List (String × α)) (k : String) : List (String × α) :=
  m.filter (fun p => !(p.1 == k))

def keysOf {α : Type} (m : List (String × α)) : List String := m.map Prod.fst

def orError {α : Type} (o : Option α) (msg : String) : Except String α :=
  match o with
  | some a => .ok a
  | none => .error msg

def asDict : JVal → Except String Dict
  | .d m => .ok m
  | _ => .error "TypeError: not a dict"

def asStr : JVal → Except String String
  | .s v => .ok v
  | _ => .error "TypeError: not a str"

def asStrList : JVal → Except String (List String)
  | .l vs => .ok vs
  | _ => .error "TypeError: not a list"

/-- Python `d.get(k, default)` for string values (documents are well-typed:
a present value of another shape is treated like the default). -/
def getStrD (m : Dict) (k : String) (dflt : String) : String :=
  match alookup m k with
  | some (.s v) => v
  | _ => dflt

/-- Python `d.get(k, default)` for boolean values. -/
def getBoolD (m : Dict) (k : String) (dflt : Bool) : Bool :=
  match alookup m k with
  | some (.b v) => v
  | _ => dflt

/-- Python `str.upper()`, character by character. -/
def pyUpper (s : String) : String := String.mk (s.data.map Char.toUpper)

/-- Python `str.lower()`, character by character. -/
def pyLower (s : String) : String := String.mk (s.data.map Char.toLower)

/-- Python `str.split(sep)` for a one-character separator, on char lists:
`"".split(sep)` is `[""]` and separators at the ends produce empty parts. -/
def splitCharList (sep : Char) : List Char → List (List Char)
  | [] => [[]]
  | c :: rest =>
    let r := splitCharList sep rest
    if c = sep then [] :: r
    else
      match r with
      | [] => [[c]]
      | h :: t => (c :: h) :: t

/-- Python `str.split(sep)` for a one-character separator. -/
def pySplit (s : String) (sep : Char) : List String :=
  (splitCharList sep s.data).map String.mk

/-- Embeds `class_capitalize` (write_python.py lines 9-13): upper-case the first
character, returning short strings unchanged on IndexError. -/
def class_capitalize (ori : String) : String :=
  match ori.data with
  | [] => ori
  | c :: rest => String.mk (c.toUpper :: rest)

/-- Embeds `resource_class_name` (lines 16-17). -/
def resource_class_name (ori : String) : String :=
  "Resource" ++ class_capitalize ori

/-- Embeds `Attribute.translate_dict` (lines 243-249). -/
def translate_dict : List (String × String) :=
  [("string", "str"), ("uint32", "int"), ("int32", "int"), ("integer", "int"),
   ("boolean", "bool"), ("array", "list"), ("object", "dict")]

/-- Embeds `Attribute.translate_type` (lines 262-267): unknown tokens pass through. -/
def translate_type (t : String) : String :=
  match alookup translate_dict t with
  | some r => r
  | none => t

/-- The `Attribute` record (lines 242-260) after `__init__` ran. -/
structure Attribute where
  name : String
  value : Option String
  type : String
  annotations : String
deriving Repr, DecidableEq

/-- Embeds `Attribute.__init__`: a `None` type falls back to the runtime type name
of the value; string values are wrapped in double quotes. -/
def mkAttribute (name : String) (value : Option String) (comment : Option String)
    (type0 : Option String) : Attribute :=
  { name := name
    value := value.map (fun v => "\"" ++ v ++ "\"")
    type := match type0 with
      | none => match value with
        | none => "NoneType"
        | some _ => "str"
      | some t => translate_type t
    annotations := comment.getD "" }

/-- Embeds `MethodArgument` (lines 316-321); on every construction path the
default value is a rendered string, with `""` meaning "no default". -/
structure MethodArgument where
  name : String
  default_value : String
  annotation_type : String
  required : Bool
deriving Repr, DecidableEq

/-- Embeds `Method` (lines 270-277). -/
structure Method where
  name : String
  arguments : List MethodArgument
  return_value : String
  implementation : String
  description : Option String
deriving Repr, DecidableEq

/-- Embeds `EnumClassElement` (lines 228-232). -/
structure EnumClassElement where
  name : String
  value : String
  annotation : String
deriving Repr, DecidableEq

/-- Embeds `EnumClassElement.str_element` (lines 234-239): the element name is the
upper-cased value, guarded with an underscore when it starts with a digit;
an empty value raises IndexError on `name[0]`. -/
def str_element (value annotation : String) : Except String EnumClassElement :=
  let name := pyUpper value
  match name.data with
  | [] => .error "IndexError"
  | c :: _ =>
    .ok { name := if c.isDigit then "_" ++ name else name
          value := value
          annotation := annotation }

/-- One registry entry: a `Class` (lines 49-61) or an `EnumClass`
(lines 191-196); the subtype is carried by `isEnum`/`subclass`/`elements`. -/
structure ClassData where
  class_name : String
  methods : List Method := []
  class_attributes : List Attribute := []
  attributes : List Attribute := []
  class_dependencies : List String := []
  description : Option String := none
  isEnum : Bool := false
  subclass : Option String := none
  elements : List EnumClassElement := []
deriving Repr, DecidableEq

abbrev Registry := List (String × ClassData)

def emptyClass (n : String) : ClassData := { class_name := n }

/-- Embeds `EnumClass.enum_class_name` (lines 198-200). -/
def enum_class_name (argument_name : String) : String :=
  "Enum" ++ class_capitalize argument_name

/-- The element loop of `EnumClass.load_dict` (lines 207-209). -/
def loadElems : List (String × String) → Except String (List EnumClassElement)
  | [] => .ok []
  | (v, a) :: rest => do
    let e ← str_element v a
    let tail ← loadElems rest
    .ok (e :: tail)

/-- Embeds `EnumClass.__init__` plus its `load_dict` override (lines 191-209):
the subclass comes from `Attribute.translate_dict[attribute_dict['type']]`
(KeyError on an unknown type), and elements are built from
`zip(enum, enumDescriptions)`. -/
def buildEnumClass (argument_name : String) (attribute_dict : Dict) :
    Except String ClassData := do
  let cn := enum_class_name argument_name
  let tJ ← orError (alookup attribute_dict "type") "KeyError: type"
  let t ← asStr tJ
  let sub ← orError (alookup translate_dict t) "KeyError: unknown type"
  let vJ ← orError (alookup attribute_dict "enum") "KeyError: enum"
  let vs ← asStrList vJ
  let dJ ← orError (alookup attribute_dict "enumDescriptions") "KeyError: enumDescriptions"
  let ds ← asStrList dJ
  let elems ← loadElems (vs.zip ds)
  .ok { class_name := cn, isEnum := true, subclass := some sub, elements := elems }

/-- Embeds `EnumClass.load_default_value` (lines 211-221): an absent default is
`""`; otherwise the first element with a matching literal is referenced
symbolically, and a default matching no element raises ValueError. -/
def enumLoadDefault (ec : ClassData) (attribute_dict : Dict) : Except String String :=
  match alookup attribute_dict "default" with
  | none => .ok ""
  | some dJ => do
    let dv ← asStr dJ
    match ec.elements.find? (fun e => e.value == dv) with
    | some e => .ok (ec.class_name ++ "." ++ e.name)
    | none => .error "ValueError"

/-- Embeds `Class.load_default_value` (lines 171-183). -/
def load_default_value (default_value : String) (annotation_type : String) :
    Except String String :=
  if default_value = "" then .ok ""
  else if annotation_type = "bool" then .ok (class_capitalize default_value)
  else if annotation_type = "int" then .ok default_value
  else if annotation_type = "str" then .ok ("\x27" ++ default_value ++ "\x27")
  else .error "TypeError"

/-- The explicit-order pass of `Method.sort_arguments` (lines 280-285):
`index_arguments` is a dict comprehension, so the last argument with a
given name wins, and an unknown name raises KeyError. -/
def resolveOrder (arguments : List MethodArgument) : List String → Except String (List MethodArgument)
  | [] => .ok []
  | n :: rest => do
    let a ← orError (arguments.reverse.find? (fun x => x.name == n)) ("KeyError: " ++ n)
    let tail ← resolveOrder arguments rest
    .ok (a :: tail)

/-- Embeds `Method.sort_arguments` (lines 279-295): explicitly ordered arguments
first, then the remaining arguments without a default, then the remaining
arguments with a default, each group in declaration order. -/
def sort_arguments (arguments : List MethodArgument) (arguments_order : List String) :
    Except String (List MethodArgument) := do
  let front ← resolveOrder arguments arguments_order
  let not_default := arguments.filter
    (fun a => a.default_value == "" && !(arguments_order.contains a.name))
  let with_default := arguments.filter
    (fun a => !(a.default_value == "") && !(arguments_order.contains a.name))
  .ok (front ++ not_default ++ with_default)

/-- Embeds `Class.load_method_response` (lines 157-169). -/
def load_method_response (method_dict : Dict) : Except String String :=
  match alookup method_dict "response" with
  | none => .ok "None"
  | some (.d sub) => do
    let r ← orError (alookup sub "$ref") "KeyError: $ref"
    asStr r
  | some (.s v) => .ok v
  | some _ => .error "ValueError"

/-- The parameter loop of `Method.load_parameters_description`
(lines 304-311): parameters without a description are skipped. -/
def lpdLoop : List (String × JVal) → Except String String
  | [] => .ok ""
  | (pname, pJ) :: rest => do
    let pd ← asDict pJ
    match alookup pd "description" with
    | none => lpdLoop rest
    | some dJ => do
      let dv ← asStr dJ
      let tail ← lpdLoop rest
      .ok ("\n\n`" ++ pname ++ "`: " ++ dv ++ tail)

/-- Embeds `Method.load_parameters_description` (lines 298-313). -/
def load_parameters_description (desc : String) (method_dict : Dict) :
    Except String String :=
  match alookup method_dict "parameters" with
  | none => .ok desc
  | some pJ => do
    let pd ← asDict pJ
    let extra ← lpdLoop pd
    .ok (desc ++ extra)

/-- The argument loop of `Class.load_method_arguments` (lines 134-149):
enum-restricted parameters synthesize an `EnumClass`, append it to the
class dependencies and register it into `file.classes`. -/
def lmaLoop (c : ClassData) (file : Registry) :
    List (String × JVal) → Except String (List MethodArgument × ClassData × Registry)
  | [] => .ok ([], c, file)
  | (aname, aJ) :: rest => do
    let ad ← asDict aJ
    let req := getBoolD ad "required" false
    let ann := translate_type (getStrD ad "type" "")
    if (alookup ad "enum").isSome then do
      let ec ← buildEnumClass aname ad
      let c2 := { c with class_dependencies := c.class_dependencies ++ [ec.class_name] }
      let file2 := dinsert file ec.class_name ec
      let dv ← enumLoadDefault ec ad
      let arg : MethodArgument :=
        { name := aname, default_value := dv, annotation_type := ec.class_name, required := req }
      let (args, c3, file3) ← lmaLoop c2 file2 rest
      .ok (arg :: args, c3, file3)
    else do
      let dv ← load_default_value (getStrD ad "default" "") ann
      let arg : MethodArgument :=
        { name := aname, default_value := dv, annotation_type := ann, required := req }
      let (args, c2, file2) ← lmaLoop c file rest
      .ok (arg :: args, c2, file2)

/-- Embeds `Class.load_method_arguments` (lines 126-151): an absent `parameters`
key yields an empty argument list. -/
def load_method_arguments (c : ClassData) (file : Registry) (method_dict : Dict) :
    Except String (List MethodArgument × ClassData × Registry) :=
  match alookup method_dict "parameters" with
  | none => .ok ([], c, file)
  | some pJ => do
    let pd ← asDict pJ
    lmaLoop c file pd

/-- Embeds `Class.sort_method_arguments` (lines 117-124): an absent
`parameterOrder` key means the empty order. -/
def method_order (method_dict : Dict) : Except String (List String) :=
  match alookup method_dict "parameterOrder" with
  | none => .ok []
  | some (.l o) => .ok o
  | some _ => .error "TypeError: parameterOrder"

/-- Embeds `Class.add_methods` (lines 106-115): `method_dict['description']` is a
plain subscript, so a missing description raises KeyError; the return type
is appended to the class dependencies before the arguments are loaded. -/
def amLoop (c : ClassData) (file : Registry) :
    List (String × JVal) → Except String (ClassData × Registry)
  | [] => .ok (c, file)
  | (mname, mJ) :: rest => do
    let md ← asDict mJ
    let descJ ← orError (alookup md "description") "KeyError: description"
    let desc ← asStr descJ
    let rv ← load_method_response md
    let desc2 ← load_parameters_description desc md
    let c2 := { c with class_dependencies := c.class_dependencies ++ [rv] }
    let (args, c3, file2) ← load_method_arguments c2 file md
    let order ← method_order md
    let sortedArgs ← sort_arguments args order
    let m : Method :=
      { name := mname, arguments := sortedArgs, return_value := rv
        implementation := "...", description := some desc2 }
    amLoop { c3 with methods := c3.methods ++ [m] } file2 rest

/-- The property loop of `Class.add_properties` (lines 82-97):
`info['description']` is a plain subscript, so a missing description
raises KeyError; enum-restricted properties synthesize an `EnumClass`
named from the enclosing class name and the capitalized property name. -/
def apLoop (c : ClassData) (file : Registry) :
    List (String × JVal) → Except String (ClassData × Registry)
  | [] => .ok (c, file)
  | (name, iJ) :: rest => do
    let info ← asDict iJ
    let (t0, c1) ←
      match alookup info "type" with
      | some tv => do
        let t ← asStr tv
        pure ((some t : Option String), c)
      | none =>
        match alookup info "$ref" with
        | some rv => do
          let r ← asStr rv
          pure (some r, { c with class_dependencies := c.class_dependencies ++ [r] })
        | none => pure (none, c)
    let (t1, c2, file1) ←
      if (alookup info "enum").isSome then do
        let ec ← buildEnumClass (c.class_name ++ class_capitalize name) info
        pure ((some ec.class_name : Option String),
              { c1 with class_dependencies := c1.class_dependencies ++ [ec.class_name] },
              dinsert file ec.class_name ec)
      else
        pure (t0, c1, file)
    let dJ ← orError (alookup info "description") "KeyError: description"
    let dv ← asStr dJ
    let attr := mkAttribute name none (some dv) t1
    apLoop { c2 with class_attributes := c2.class_attributes ++ [attr] } file1 rest

/-- Embeds `Class.add_resources` (lines 99-104): each nested resource yields a
zero-argument method returning the resource's synthetic class and records
that class as a dependency; the resource body itself is ignored here. -/
def class_add_resources (c : ClassData) : List (String × JVal) → ClassData
  | [] => c
  | (rname, _) :: rest =>
    class_add_resources
      { c with
        methods := c.methods ++
          [{ name := rname, arguments := [], return_value := resource_class_name rname
             implementation := "...", description := none }]
        class_dependencies := c.class_dependencies ++ [resource_class_name rname] }
      rest

/-- Embeds `Class.load_dict` (lines 63-72): recognized keys are `properties`,
`description`, `resources` and `methods`; any other key is ignored. -/
def clLoop (c : ClassData) (file : Registry) :
    List (String × JVal) → Except String (ClassData × Registry)
  | [] => .ok (c, file)
  | (key, value) :: rest => do
    let (c2, file2) ←
      if key = "properties" then do
        let pd ← asDict value
        apLoop c file pd
      else if key = "description" then do
        let dv ← asStr value
        pure ({ c with description := some dv }, file)
      else if key = "resources" then do
        let rd ← asDict value
        pure (class_add_resources c rd, file)
      else if key = "methods" then do
        let md ← asDict value
        amLoop c file md
      else
        pure (c, file)
    clLoop c2 file2 rest

/-- Embeds `Class.__init__` (lines 50-61): build one class from a schema node,
threading the registry the enum synthesizer inserts into. -/
def buildClass (class_name : String) (class_dict : Dict) (file : Registry) :
    Except String (ClassData × Registry) :=
  clLoop (emptyClass class_name) file class_dict

/-- Embeds `File.add_class` (lines 36-38): the class is registered under its own
name after construction completes. -/
def addClassF (file : Registry) (class_name : String) (class_dict : Dict) :
    Except String Registry := do
  let (c, file2) ← buildClass class_name class_dict file
  .ok (dinsert file2 class_name c)

/-- Embeds `File.add_schemas` (lines 40-42). -/
def addSchemasLoop (file : Registry) : List (String × JVal) → Except String Registry
  | [] => .ok file
  | (sname, sJ) :: rest => do
    let sd ← asDict sJ
    let file2 ← addClassF file sname sd
    addSchemasLoop file2 rest

/-- Embeds `File.add_resources` (lines 44-46): each top-level resource node is
registered as its own class under a resource-qualified name. -/
def fileAddResourcesLoop (file : Registry) : List (String × JVal) → Except String Registry
  | [] => .ok file
  | (rname, rJ) :: rest => do
    let rd ← asDict rJ
    let file2 ← addClassF file (resource_class_name rname) rd
    fileAddResourcesLoop file2 rest

/-- The root class name: `''.join(class_capitalize(i) for i in api_id.split(':'))`. -/
def rootName (api_id : String) : String :=
  String.join ((pySplit api_id ':').map class_capitalize)

/-- The output file name: `'_'.join(i.lower() for i in api_id.split(':')) + ".py"`. -/
def fileNameOf (api_id : String) : String :=
  String.intercalate "_" ((pySplit api_id ':').map pyLower) ++ ".py"

structure FileModel where
  classes : Registry
  file_name : String
deriving Repr

/-- Embeds `File.__init__` (lines 21-34): schemas first, then
`del discovery_dict['schemas']` (the input document is mutated — the
returned `Dict` is its state after the build), then the API-root class,
then the top-level resources. -/
def buildFile (doc : Dict) : Except String (FileModel × Dict) := do
  let sJ ← orError (alookup doc "schemas") "KeyError: schemas"
  let sd ← asDict sJ
  let file1 ← addSchemasLoop [] sd
  let doc2 := eraseKey doc "schemas"
  let idJ ← orError (alookup doc2 "id") "KeyError: id"
  let api_id ← asStr idJ
  let file2 ← addClassF file1 (rootName api_id) doc2
  let rJ ← orError (alookup doc2 "resources") "KeyError: resources"
  let rd ← asDict rJ
  let file3 ← fileAddResourcesLoop file2 rd
  .ok ({ classes := file3, file_name := fileNameOf api_id }, doc2)

/-! ## The dependency-ordered emitter (`FileWriter`, lines 363-394)

Emission is modelled at the granularity of class declarations: the
`out` component is the sequence of class names whose bodies have been
rendered, in rendering order, and `written` is `self.written_classes`. -/

structure EmitState where
  written : List String
  out : List String
deriving Repr

/-- The dependency loop of `write_class` (lines 376-381): a dependency
name absent from the registry is skipped. -/
def depsFold (reg : Registry) (f : ClassData → EmitState → EmitState) :
    List String → EmitState → EmitState
  | [], s => s
  | dep :: rest, s =>
    match alookup reg dep with
    | none => depsFold reg f rest s
    | some cd => depsFold reg f rest (f cd s)

/-- Embeds `FileWriter.write_class` (lines 371-384): return if already written,
mark written, recurse into the dependencies, then render the body.  The
`fuel` argument bounds the recursion depth; `write_class` never recurses
deeper than the number of unwritten registry classes plus one, so any
fuel of at least `reg.length + 1` is enough. -/
def writeClassAux (reg : Registry) : Nat → ClassData → EmitState → EmitState
  | 0, _, s => s
  | fuel + 1, c, s =>
    if s.written.contains c.class_name then s
    else
      let s1 : EmitState := { written := c.class_name :: s.written, out := s.out }
      let s2 := depsFold reg (fun cd st => writeClassAux reg fuel cd st)
        c.class_dependencies s1
      { written := s2.written, out := s2.out ++ [c.class_name] }

/-- Embeds `FileWriter.write` (lines 386-389): walk the registry in insertion
order, sharing the written-set across the walk. -/
def writeAll (reg : Registry) : List (String × ClassData) → EmitState → EmitState
  | [], s => s
  | (_, c) :: rest, s => writeAll reg rest (writeClassAux reg (reg.length + 1) c s)

/-- The sequence of class declarations in the emitted output stream. -/
def emitNames (reg : Registry) : List String :=
  (writeAll reg reg { written := [], out := [] }).out

/-- The full pipeline on one document: registry build followed by
emission, also returning the document's post-build state. -/
def pipeline (doc : Dict) : Except String (List String × Dict) := do
  let (fm, doc2) ← buildFile doc
  .ok (emitNames fm.classes, doc2)

/-! ## Positions in the output stream -/

/-- Index of the first occurrence of `a` in `l` (`l.length` when absent). -/
def idxOf : List String → String → Nat
  | [], _ => 0
  | b :: t, a => if b = a then 0 else idxOf t a + 1

/-- Holds when `d` is declared strictly before `c` in the stream `l`. -/
abbrev beforeIn (l : List String) (d c : String) : Prop :=
  d ∈ l ∧ idxOf l d < idxOf l c

theorem idxOf_append_of_mem {l : List String} {a : String} (h : a ∈ l) (x : String) :
    idxOf (l ++ [x]) a = idxOf l a := by
  induction l with
  | nil => simp at h
  | cons b t ih =>
    by_cases hb : b = a
    · simp [idxOf, hb]
    · have ht : a ∈ t := by
        rcases List.mem_cons.mp h with h1 | h1
        · exact absurd h1.symm hb
        · exact h1
      simp [idxOf, hb, ih ht]

theorem idxOf_append_self {l : List String} {x : String} (h : x ∉ l) :
    idxOf (l ++ [x]) x = l.length := by
  induction l with
  | nil => simp [idxOf]
  | cons b t ih =>
    have hb : b ≠ x := fun hc => h (by simp [hc])
    have ht : x ∉ t := fun hc => h (by simp [hc])
    simp [idxOf, hb, ih ht]

theorem idxOf_lt_length {l : List String} {a : String} (h : a ∈ l) :
    idxOf l a < l.length := by
  induction l with
  | nil => simp at h
  | cons b t ih =>
    by_cases hb : b = a
    · simp [idxOf, hb]
    · have ht : a ∈ t := by
        rcases List.mem_cons.mp h with h1 | h1
        · exact absurd h1.symm hb
        · exact h1
      have := ih ht
      simp only [idxOf, if_neg hb, List.length_cons]
      omega

theorem beforeIn_append {l : List String} {d c : String} (h : beforeIn l d c)
    (x : String) (hc : c ∈ l) : beforeIn (l ++ [x]) d c := by
  refine ⟨by simp [h.1], ?_⟩
  rw [idxOf_append_of_mem h.1, idxOf_append_of_mem hc]
  exact h.2

theorem beforeIn_append_new {l : List String} {d c : String} (hd : d ∈ l)
    (hc : c ∉ l) : beforeIn (l ++ [c]) d c := by
  refine ⟨by simp [hd], ?_⟩
  rw [idxOf_append_of_mem hd, idxOf_append_self hc]
  exact idxOf_lt_length hd

/-! ## Association-list lemmas -/

theorem mem_keys_of_alookup_some {α : Type} {m : List (String × α)} {k : String} {v : α}
    (h : alookup m k = some v) : k ∈ keysOf m := by
  induction m with
  | nil => simp [alookup] at h
  | cons p rest ih =>
    cases p with
    | mk k0 w =>
      by_cases hk : k0 = k
      · subst hk; simp [keysOf]
      · simp only [alookup, if_neg hk] at h
        simp only [keysOf, List.map_cons, List.mem_cons]
        exact Or.inr (by simpa [keysOf] using ih h)

theorem alookup_some_of_mem_keys {α : Type} {m : List (String × α)} {k : String}
    (h : k ∈ keysOf m) : ∃ v, alookup m k = some v := by
  induction m with
  | nil => simp [keysOf] at h
  | cons p rest ih =>
    cases p with
    | mk k0 w =>
      by_cases hk : k0 = k
      · exact ⟨w, by simp [alookup, hk]⟩
      · have ht : k ∈ keysOf rest := by
          simp only [keysOf, List.map_cons, List.mem_cons] at h
          rcases h with h1 | h1
          · exact absurd h1.symm hk
          · simpa [keysOf] using h1
        obtain ⟨v, hv⟩ := ih ht
        exact ⟨v, by simp [alookup, hk, hv]⟩

theorem alookup_none_of_not_mem_keys {α : Type} {m : List (String × α)} {k : String}
    (h : k ∉ keysOf m) : alookup m k = none := by
  cases hl : alookup m k with
  | none => rfl
  | some v => exact absurd (mem_keys_of_alookup_some hl) h

theorem alookup_of_mem_nodup {α : Type} {m : List (String × α)} {k : String} {v : α}
    (hnd : (keysOf m).Nodup) (h : (k, v) ∈ m) : alookup m k = some v := by
  induction m with
  | nil => simp at h
  | cons p rest ih =>
    cases p with
    | mk k0 w =>
      simp only [keysOf, List.map_cons, List.nodup_cons] at hnd
      rcases List.mem_cons.mp h with h1 | h1
      · rw [show k = k0 from congrArg Prod.fst h1, show v = w from congrArg Prod.snd h1]
        simp [alookup]
      · have hk : k0 ≠ k := by
          intro hc
          subst hc
          exact hnd.1 (by simpa [keysOf] using List.mem_map_of_mem Prod.fst h1)
      
        simp only [alookup, if_neg hk]
        exact ih (by simpa [keysOf] using hnd.2) h1

theorem keysOf_map_dkey {α : Type} (m : List (String × α)) (k : String) (v : α) :
    keysOf (m.map (fun p => if p.1 = k then (k, v) else p)) = keysOf m := by
  induction m with
  | nil => rfl
  | cons p rest ih =>
    cases p with
    | mk k0 w =>
      by_cases hk : k0 = k
      · subst hk
        simp only [List.map_cons, keysOf] at ih ⊢
        simp [ih]
      · simp only [List.map_cons, keysOf] at ih ⊢
        simp [hk, ih]

theorem keysOf_dinsert_of_mem {α : Type} {m : List (String × α)} {k : String} (v : α)
    (h : k ∈ keysOf m) : keysOf (dinsert m k v) = keysOf m := by
  obtain ⟨w, hw⟩ := alookup_some_of_mem_keys h
  rw [dinsert, if_pos (by simp [hw])]
  exact keysOf_map_dkey m k v

theorem keysOf_dinsert_of_not_mem {α : Type} {m : List (String × α)} {k : String} (v : α)
    (h : k ∉ keysOf m) : keysOf (dinsert m k v) = keysOf m ++ [k] := by
  rw [dinsert, if_neg (by simp [alookup_none_of_not_mem_keys h])]
  simp [keysOf]

theorem mem_keys_dinsert_self {α : Type} (m : List (String × α)) (k : String) (v : α) :
    k ∈ keysOf (dinsert m k v) := by
  by_cases h : k ∈ keysOf m
  · rw [keysOf_dinsert_of_mem v h]; exact h
  · rw [keysOf_dinsert_of_not_mem v h]; simp

theorem mem_keys_dinsert_of_mem {α : Type} {m : List (String × α)} {a k : String} (v : α)
    (h : a ∈ keysOf m) : a ∈ keysOf (dinsert m k v) := by
  by_cases hk : k ∈ keysOf m
  · rw [keysOf_dinsert_of_mem v hk]; exact h
  · rw [keysOf_dinsert_of_not_mem v hk]; simp [h]

theorem nodup_keys_dinsert {α : Type} {m : List (String × α)} {k : String} (v : α)
    (h : (keysOf m).Nodup) : (keysOf (dinsert m k v)).Nodup := by
  by_cases hk : k ∈ keysOf m
  · rw [keysOf_dinsert_of_mem v hk]; exact h
  · rw [keysOf_dinsert_of_not_mem v hk]
    simpa [List.nodup_append] using ⟨h, hk⟩

theorem alookup_map_dkey_self {α : Type} {m : List (String × α)} {k : String} (v : α)
    (hk : k ∈ keysOf m) :
    alookup (m.map (fun p => if p.1 = k then (k, v) else p)) k = some v := by
  induction m with
  | nil => simp [keysOf] at hk
  | cons p rest ih =>
    cases p with
    | mk k0 w =>
      by_cases h0 : k0 = k
      · subst h0
        rw [List.map_cons, if_pos (show (k0, w).1 = k0 from rfl)]
        simp [alookup]
      · have ht : k ∈ keysOf rest := by
          simp only [keysOf, List.map_cons, List.mem_cons] at hk
          rcases hk with h1 | h1
          · exact absurd h1.symm h0
          · simpa [keysOf] using h1
        rw [List.map_cons, if_neg (show ¬((k0, w).1 = k) from h0)]
        simp only [alookup, if_neg h0]
        exact ih ht

theorem alookup_map_dkey_ne {α : Type} {m : List (String × α)} {a k : String} (v : α)
    (h : a ≠ k) :
    alookup (m.map (fun p => if p.1 = k then (k, v) else p)) a = alookup m a := by
  induction m with
  | nil => rfl
  | cons p rest ih =>
    cases p with
    | mk k0 w =>
      have hka : k ≠ a := fun hc => h hc.symm
      by_cases h0 : k0 = k
      · subst h0
        rw [List.map_cons, if_pos (show (k0, w).1 = k0 from rfl)]
        simp only [alookup]
        rw [if_neg hka, if_neg hka]
        exact ih
      · rw [List.map_cons, if_neg (show ¬((k0, w).1 = k) from h0)]
        by_cases ha : k0 = a
        · simp [alookup, ha]
        · simp only [alookup, if_neg ha]
          exact ih

theorem alookup_append_single_self {α : Type} {m : List (String × α)} {k : String} (v : α)
    (h : alookup m k = none) : alookup (m ++ [(k, v)]) k = some v := by
  induction m with
  | nil => simp [alookup]
  | cons p rest ih =>
    cases p with
    | mk k0 w =>
      by_cases h0 : k0 = k
      · subst h0
        simp [alookup] at h
      · simp only [alookup, if_neg h0] at h
        simp only [List.cons_append, alookup, if_neg h0]
        exact ih h

theorem alookup_append_single_ne {α : Type} (m : List (String × α)) {a k : String} (v : α)
    (h : a ≠ k) : alookup (m ++ [(k, v)]) a = alookup m a := by
  have hka : k ≠ a := fun hc => h hc.symm
  induction m with
  | nil => simp [alookup, hka]
  | cons p rest ih =>
    cases p with
    | mk k0 w =>
      by_cases ha : k0 = a
      · simp [alookup, ha]
      · simp only [List.cons_append, alookup, if_neg ha]
        exact ih

theorem alookup_dinsert_self {α : Type} (m : List (String × α)) (k : String) (v : α) :
    alookup (dinsert m k v) k = some v := by
  by_cases hk : k ∈ keysOf m
  · obtain ⟨w, hw⟩ := alookup_some_of_mem_keys hk
    rw [dinsert, if_pos (by simp [hw])]
    exact alookup_map_dkey_self v hk
  · rw [dinsert, if_neg (by simp [alookup_none_of_not_mem_keys hk])]
    exact alookup_append_single_self v (alookup_none_of_not_mem_keys hk)

theorem alookup_dinsert_ne {α : Type} (m : List (String × α)) {a k : String} (v : α)
    (h : a ≠ k) : alookup (dinsert m k v) a = alookup m a := by
  by_cases hk : k ∈ keysOf m
  · obtain ⟨w, hw⟩ := alookup_some_of_mem_keys hk
    rw [dinsert, if_pos (by simp [hw])]
    exact alookup_map_dkey_ne v h
  · rw [dinsert, if_neg (by simp [alookup_none_of_not_mem_keys hk])]
    exact alookup_append_single_ne m v h

theorem eraseKey_cons_self {α : Type} (k : String) (v : α) (rest : List (String × α)) :
    eraseKey ((k, v) :: rest) k = eraseKey rest k := by
  simp [eraseKey]

theorem eraseKey_cons_ne {α : Type} {k0 k : String} (v : α) (rest : List (String × α))
    (h : k0 ≠ k) : eraseKey ((k0, v) :: rest) k = (k0, v) :: eraseKey rest k := by
  simp [eraseKey, h]

theorem alookup_eraseKey_self {α : Type} (m : List (String × α)) (k : String) :
    alookup (eraseKey m k) k = none := by
  induction m with
  | nil => rfl
  | cons p rest ih =>
    cases p with
    | mk k0 v =>
      by_cases hp : k0 = k
      · subst hp
        rw [eraseKey_cons_self]
        exact ih
      · rw [eraseKey_cons_ne v rest hp]
        simp only [alookup, if_neg hp]
        exact ih

theorem alookup_eraseKey_ne {α : Type} (m : List (String × α)) {a k : String}
    (h : a ≠ k) : alookup (eraseKey m k) a = alookup m a := by
  induction m with
  | nil => rfl
  | cons p rest ih =>
    cases p with
    | mk k0 v =>
      by_cases hp : k0 = k
      · subst hp
        have hka : k0 ≠ a := fun hc => h hc.symm
        rw [eraseKey_cons_self, ih]
        simp [alookup, hka]
      · rw [eraseKey_cons_ne v rest hp]
        by_cases ha : k0 = a
        · simp [alookup, ha]
        · simp only [alookup, if_neg ha]
          exact ih

/-! ## Inversion helpers for the `Except` monad -/

theorem exbind_eq_ok {α β : Type} (e : Except String α) (f : α → Except String β) (c : β) :
    (e >>= f) = .ok c ↔ ∃ b, e = .ok b ∧ f b = .ok c := by
  cases e with
  | error err =>
    constructor
    · intro h; exact absurd h (by simp [Bind.bind, Except.bind])
    · rintro ⟨b, hb, -⟩; cases hb
  | ok b =>
    constructor
    · intro h; exact ⟨b, rfl, by simpa [Bind.bind, Except.bind] using h⟩
    · rintro ⟨b2, hb, hf⟩
      cases hb
      simpa [Bind.bind, Except.bind] using hf

theorem orError_eq_ok {α : Type} (o : Option α) (msg : String) (b : α) :
    orError o msg = .ok b ↔ o = some b := by
  cases o <;> simp [orError]

/-! ## Registry wellformedness through the build phase

Every registry mutation performed by the build phase is an insertion of a
class under its own name; `RegStep` captures one such insertion and
`Relation.ReflTransGen RegStep` an arbitrary build segment. -/

def RegStep (r r2 : Registry) : Prop :=
  ∃ k v, v.class_name = k ∧ r2 = dinsert r k v

def RegWF (reg : Registry) : Prop :=
  (keysOf reg).Nodup ∧ ∀ p ∈ reg, p.2.class_name = p.1

theorem regWF_dinsert {r : Registry} {k : String} {v : ClassData}
    (h : RegWF r) (hv : v.class_name = k) : RegWF (dinsert r k v) := by
  refine ⟨nodup_keys_dinsert v h.1, ?_⟩
  intro p hp
  rw [dinsert] at hp
  by_cases hk : (alookup r k).isSome = true
  · rw [if_pos hk] at hp
    obtain ⟨q, hq, rfl⟩ := List.mem_map.mp hp
    by_cases hq1 : q.1 = k
    · rw [if_pos hq1]; exact hv
    · rw [if_neg hq1]; exact h.2 q hq
  · rw [if_neg hk] at hp
    rcases List.mem_append.mp hp with h1 | h1
    · exact h.2 p h1
    · rw [List.mem_singleton.mp h1]
      exact hv

theorem regWF_regEv {r r2 : Registry} (h : Relation.ReflTransGen RegStep r r2)
    (hw : RegWF r) : RegWF r2 := by
  induction h with
  | refl => exact hw
  | tail _ hstep ih =>
    obtain ⟨k, v, hv, rfl⟩ := hstep
    exact regWF_dinsert ih hv

theorem regEv_keys_mono {r r2 : Registry} (h : Relation.ReflTransGen RegStep r r2)
    {a : String} (ha : a ∈ keysOf r) : a ∈ keysOf r2 := by
  induction h with
  | refl => exact ha
  | tail _ hstep ih =>
    obtain ⟨k, v, hv, rfl⟩ := hstep
    exact mem_keys_dinsert_of_mem v ih

theorem lmaLoop_reg : ∀ (ps : List (String × JVal)) (c : ClassData) (file : Registry) r,
    lmaLoop c file ps = .ok r →
    Relation.ReflTransGen RegStep file r.2.2 ∧ r.2.1.class_name = c.class_name := by
  intro ps
  induction ps with
  | nil =>
    intro c file r h
    simp only [lmaLoop, Except.ok.injEq] at h
    rw [← h]
    exact ⟨.refl, rfl⟩
  | cons p rest ih =>
    intro c file r h
    obtain ⟨aname, aJ⟩ := p
    simp only [lmaLoop, exbind_eq_ok, Except.ok.injEq] at h
    obtain ⟨ad, had, h⟩ := h
    by_cases he : (alookup ad "enum").isSome
    · simp only [he, eq_self_iff_true, if_true, exbind_eq_ok, Except.ok.injEq] at h
      obtain ⟨ec, hec, dv, hdv, tr, htr, hr⟩ := h
      have hrec := ih _ _ _ htr
      rw [← hr]
      constructor
      · exact Relation.ReflTransGen.trans
          (Relation.ReflTransGen.single ⟨ec.class_name, ec, rfl, rfl⟩) hrec.1
      · simpa using hrec.2
    · simp only [he, Bool.false_eq_true, if_false, exbind_eq_ok, Except.ok.injEq] at h
      obtain ⟨dv, hdv, tr, htr, hr⟩ := h
      have hrec := ih _ _ _ htr
      rw [← hr]
      exact ⟨hrec.1, by simpa using hrec.2⟩

theorem load_method_arguments_reg {c : ClassData} {file : Registry} {md : Dict} {r}
    (h : load_method_arguments c file md = .ok r) :
    Relation.ReflTransGen RegStep file r.2.2 ∧ r.2.1.class_name = c.class_name := by
  rw [load_method_arguments] at h
  cases hp : alookup md "parameters" with
  | none =>
    rw [hp] at h
    simp only [Except.ok.injEq] at h
    rw [← h]
    exact ⟨.refl, rfl⟩
  | some pJ =>
    rw [hp] at h
    simp only [exbind_eq_ok] at h
    obtain ⟨pd, hpd, h⟩ := h
    exact lmaLoop_reg _ _ _ _ h

theorem amLoop_reg : ∀ (ms : List (String × JVal)) (c : ClassData) (file : Registry) r,
    amLoop c file ms = .ok r →
    Relation.ReflTransGen RegStep file r.2 ∧ r.1.class_name = c.class_name := by
  intro ms
  induction ms with
  | nil =>
    intro c file r h
    simp only [amLoop, Except.ok.injEq] at h
    rw [← h]
    exact ⟨.refl, rfl⟩
  | cons p rest ih =>
    intro c file r h
    obtain ⟨mname, mJ⟩ := p
    simp only [amLoop, exbind_eq_ok, Except.ok.injEq] at h
    obtain ⟨md, hmd, descJ, hdescJ, desc, hdesc, rv, hrv, desc2, hdesc2, tr, htr, order,
      horder, sortedArgs, hsorted, h⟩ := h
    have hrec := ih _ _ _ h
    have hargs := load_method_arguments_reg htr
    refine ⟨Relation.ReflTransGen.trans hargs.1 ?_, ?_⟩
    · simpa using hrec.1
    · rw [hrec.2]
      simpa using hargs.2

theorem class_add_resources_name : ∀ (rs : List (String × JVal)) (c : ClassData),
    (class_add_resources c rs).class_name = c.class_name := by
  intro rs
  induction rs with
  | nil => intro c; rfl
  | cons p rest ih =>
    intro c
    obtain ⟨rname, rJ⟩ := p
    simp only [class_add_resources]
    rw [ih]

theorem apLoop_reg : ∀ (ps : List (String × JVal)) (c : ClassData) (file : Registry) r,
    apLoop c file ps = .ok r →
    Relation.ReflTransGen RegStep file r.2 ∧ r.1.class_name = c.class_name := by
  intro ps
  induction ps with
  | nil =>
    intro c file r h
    simp only [apLoop, Except.ok.injEq] at h
    rw [← h]
    exact ⟨.refl, rfl⟩
  | cons p rest ih =>
    intro c file r h
    obtain ⟨pname, iJ⟩ := p
    simp only [apLoop, exbind_eq_ok] at h
    obtain ⟨info, hinfo, h⟩ := h
    cases ht : alookup info "type" with
    | some tv =>
      rw [ht] at h
      by_cases he : (alookup info "enum").isSome
      · simp only [he, eq_self_iff_true, if_true, exbind_eq_ok, pure_bind] at h
        obtain ⟨t, ht2, ec, hec, dJ, hdJ, dv, hdv, h⟩ := h
        have hrec := ih _ _ _ h
        refine ⟨Relation.ReflTransGen.trans
          (Relation.ReflTransGen.single ⟨ec.class_name, ec, rfl, rfl⟩) hrec.1, ?_⟩
        rw [hrec.2]
      · simp only [he, Bool.false_eq_true, if_false, exbind_eq_ok, pure_bind] at h
        obtain ⟨t, ht2, dJ, hdJ, dv, hdv, h⟩ := h
        have hrec := ih _ _ _ h
        exact ⟨hrec.1, by rw [hrec.2]⟩
    | none =>
      rw [ht] at h
      cases hrf : alookup info "$ref" with
      | some rv =>
        rw [hrf] at h
        by_cases he : (alookup info "enum").isSome
        · simp only [he, eq_self_iff_true, if_true, exbind_eq_ok, pure_bind] at h
          obtain ⟨t, ht2, ec, hec, dJ, hdJ, dv, hdv, h⟩ := h
          have hrec := ih _ _ _ h
          refine ⟨Relation.ReflTransGen.trans
            (Relation.ReflTransGen.single ⟨ec.class_name, ec, rfl, rfl⟩) hrec.1, ?_⟩
          rw [hrec.2]
        · simp only [he, Bool.false_eq_true, if_false, exbind_eq_ok, pure_bind] at h
          obtain ⟨t, ht2, dJ, hdJ, dv, hdv, h⟩ := h
          have hrec := ih _ _ _ h
          exact ⟨hrec.1, by rw [hrec.2]⟩
      | none =>
        rw [hrf] at h
        by_cases he : (alookup info "enum").isSome
        · simp only [he, eq_self_iff_true, if_true, exbind_eq_ok, pure_bind] at h
          obtain ⟨ec, hec, dJ, hdJ, dv, hdv, h⟩ := h
          have hrec := ih _ _ _ h
          refine ⟨Relation.ReflTransGen.trans
            (Relation.ReflTransGen.single ⟨ec.class_name, ec, rfl, rfl⟩) hrec.1, ?_⟩
          rw [hrec.2]
        · simp only [he, Bool.false_eq_true, if_false, exbind_eq_ok, pure_bind] at h
          obtain ⟨dJ, hdJ, dv, hdv, h⟩ := h
          have hrec := ih _ _ _ h
          exact ⟨hrec.1, by rw [hrec.2]⟩

theorem clLoop_reg : ∀ (ps : List (String × JVal)) (c : ClassData) (file : Registry) r,
    clLoop c file ps = .ok r →
    Relation.ReflTransGen RegStep file r.2 ∧ r.1.class_name = c.class_name := by
  intro ps
  induction ps with
  | nil =>
    intro c file r h
    simp only [clLoop, Except.ok.injEq] at h
    rw [← h]
    exact ⟨.refl, rfl⟩
  | cons p rest ih =>
    intro c file r h
    obtain ⟨key, value⟩ := p
    simp only [clLoop] at h
    by_cases h1 : key = "properties"
    · simp only [h1, eq_self_iff_true, if_true, exbind_eq_ok, pure_bind] at h
      obtain ⟨pd, hpd, cf, hcf, h⟩ := h
      have hstep := apLoop_reg _ _ _ _ hcf
      have hrec := ih _ _ _ h
      exact ⟨Relation.ReflTransGen.trans hstep.1 hrec.1, by rw [hrec.2, hstep.2]⟩
    · rw [if_neg h1] at h
      by_cases h2 : key = "description"
      · simp only [h2, eq_self_iff_true, if_true, exbind_eq_ok, pure_bind] at h
        obtain ⟨dv, hdv, h⟩ := h
        have hrec := ih _ _ _ h
        exact ⟨hrec.1, by rw [hrec.2]⟩
      · rw [if_neg h2] at h
        by_cases h3 : key = "resources"
        · simp only [h3, eq_self_iff_true, if_true, exbind_eq_ok, pure_bind] at h
          obtain ⟨rd, hrd, h⟩ := h
          have hrec := ih _ _ _ h
          exact ⟨hrec.1, by rw [hrec.2, class_add_resources_name]⟩
        · rw [if_neg h3] at h
          by_cases h4 : key = "methods"
          · simp only [h4, eq_self_iff_true, if_true, exbind_eq_ok, pure_bind] at h
            obtain ⟨md, hmd, cf, hcf, h⟩ := h
            have hstep := amLoop_reg _ _ _ _ hcf
            have hrec := ih _ _ _ h
            exact ⟨Relation.ReflTransGen.trans hstep.1 hrec.1, by rw [hrec.2, hstep.2]⟩
          · rw [if_neg h4] at h
            simp only [pure_bind] at h
            have hrec := ih _ _ _ h
            exact ⟨hrec.1, by rw [hrec.2]⟩

theorem buildClass_reg {n : String} {d : Dict} {file : Registry} {r}
    (h : buildClass n d file = .ok r) :
    Relation.ReflTransGen RegStep file r.2 ∧ r.1.class_name = n := by
  rw [buildClass] at h
  exact clLoop_reg _ _ _ _ h

theorem addClassF_reg {file : Registry} {n : String} {d : Dict} {r2 : Registry}
    (h : addClassF file n d = .ok r2) :
    Relation.ReflTransGen RegStep file r2 ∧ n ∈ keysOf r2 := by
  simp only [addClassF, exbind_eq_ok, Except.ok.injEq] at h
  obtain ⟨cf, hcf, h⟩ := h
  have hb := buildClass_reg hcf
  rw [← h]
  constructor
  · exact Relation.ReflTransGen.tail hb.1 ⟨n, cf.1, hb.2, rfl⟩
  · exact mem_keys_dinsert_self _ _ _

theorem addSchemasLoop_reg : ∀ (ps : List (String × JVal)) (file : Registry) r,
    addSchemasLoop file ps = .ok r → Relation.ReflTransGen RegStep file r := by
  intro ps
  induction ps with
  | nil =>
    intro file r h
    simp only [addSchemasLoop, Except.ok.injEq] at h
    rw [← h]
  | cons p rest ih =>
    intro file r h
    obtain ⟨sname, sJ⟩ := p
    simp only [addSchemasLoop, exbind_eq_ok] at h
    obtain ⟨sd, hsd, f2, hf2, h⟩ := h
    exact Relation.ReflTransGen.trans (addClassF_reg hf2).1 (ih _ _ h)

theorem fileAddResourcesLoop_reg : ∀ (ps : List (String × JVal)) (file : Registry) r,
    fileAddResourcesLoop file ps = .ok r →
    Relation.ReflTransGen RegStep file r ∧
      ∀ p ∈ ps, resource_class_name p.1 ∈ keysOf r := by
  intro ps
  induction ps with
  | nil =>
    intro file r h
    simp only [fileAddResourcesLoop, Except.ok.injEq] at h
    rw [← h]
    exact ⟨.refl, by simp⟩
  | cons p rest ih =>
    intro file r h
    obtain ⟨rname, rJ⟩ := p
    simp only [fileAddResourcesLoop, exbind_eq_ok] at h
    obtain ⟨rd, hrd, f2, hf2, h⟩ := h
    have ha := addClassF_reg hf2
    have hrec := ih _ _ h
    refine ⟨Relation.ReflTransGen.trans ha.1 hrec.1, ?_⟩
    intro q hq
    rcases List.mem_cons.mp hq with h1 | h1
    · rw [h1]
      exact regEv_keys_mono hrec.1 ha.2
    · exact hrec.2 q h1

theorem buildFile_reg {doc : Dict} {fm : FileModel} {doc2 : Dict}
    (h : buildFile doc = .ok (fm, doc2)) :
    Relation.ReflTransGen RegStep [] fm.classes := by
  simp only [buildFile, exbind_eq_ok, Except.ok.injEq] at h
  obtain ⟨sJ, hsJ, sd, hsd, f1, hf1, idJ, hidJ, api, hapi, f2, hf2, rJ, hrJ, rd, hrd,
    f3, hf3, h⟩ := h
  have h1 := addSchemasLoop_reg _ _ _ hf1
  have h2 := (addClassF_reg hf2).1
  have h3 := (fileAddResourcesLoop_reg _ _ _ hf3).1
  have hfst : ({ classes := f3, file_name := fileNameOf api } : FileModel) = fm :=
    congrArg Prod.fst h
  rw [← hfst]
  exact Relation.ReflTransGen.trans h1 (Relation.ReflTransGen.trans h2 h3)

theorem buildFile_wf {doc : Dict} {fm : FileModel} {doc2 : Dict}
    (h : buildFile doc = .ok (fm, doc2)) : RegWF fm.classes := by
  have h0 : RegWF [] := ⟨List.nodup_nil, by simp⟩
  exact regWF_regEv (buildFile_reg h) h0

/-! ## Emission invariants

`edgeR reg a b` holds when the registry class named `a` lists `b` as a
dependency and `b` is itself present in the registry (absent dependency
names are skipped by the emitter and can never influence it). -/

def edgeR (reg : Registry) (a b : String) : Prop :=
  ∃ cls, alookup reg a = some cls ∧ b ∈ cls.class_dependencies ∧ b ∈ keysOf reg

/-- The registry-present dependency graph has no cycle (no dependency
edge closes back on its source through dependency paths). -/
def AcyclicReg (reg : Registry) : Prop :=
  ∀ a b, edgeR reg a b → ¬ Relation.ReflTransGen (edgeR reg) b a

/-- Number of registry keys not yet marked written. -/
def unwrittenCount (reg : Registry) (w : List String) : Nat :=
  ((keysOf reg).filter (fun k => decide (k ∉ w))).length

/-- The emitter state invariant: rendered declarations are pairwise
distinct registry members, every rendered class is marked written, and
every dependency of a rendered class is either rendered strictly earlier
or closes a dependency cycle back to its user. -/
def GoodS (reg : Registry) (s : EmitState) : Prop :=
  s.out.Nodup ∧
  (∀ n ∈ s.out, n ∈ s.written) ∧
  (∀ n ∈ s.written, n ∈ keysOf reg) ∧
  (∀ x ∈ s.out, ∀ d, edgeR reg x d →
    beforeIn s.out d x ∨ Relation.ReflTransGen (edgeR reg) d x)

/-- What one emitter call does to the state: the written set grows, the
output stream is extended, and the set of in-progress names (marked
written but not yet rendered) is unchanged. -/
def PostS (s s2 : EmitState) : Prop :=
  (∀ n ∈ s.written, n ∈ s2.written) ∧
  (∃ t, s2.out = s.out ++ t) ∧
  (∀ n, (n ∈ s2.written ∧ n ∉ s2.out) ↔ (n ∈ s.written ∧ n ∉ s.out))

theorem postS_refl (s : EmitState) : PostS s s :=
  ⟨fun _ h => h, ⟨[], by simp⟩, fun _ => Iff.rfl⟩

theorem postS_trans {s s2 s3 : EmitState} (h1 : PostS s s2) (h2 : PostS s2 s3) :
    PostS s s3 := by
  refine ⟨fun n hn => h2.1 n (h1.1 n hn), ?_, fun n => (h2.2.2 n).trans (h1.2.2 n)⟩
  obtain ⟨t1, ht1⟩ := h1.2.1
  obtain ⟨t2, ht2⟩ := h2.2.1
  exact ⟨t1 ++ t2, by rw [ht2, ht1, List.append_assoc]⟩

theorem mem_of_alookup_some {α : Type} {m : List (String × α)} {k : String} {v : α}
    (h : alookup m k = some v) : (k, v) ∈ m := by
  induction m with
  | nil => simp [alookup] at h
  | cons p rest ih =>
    cases p with
    | mk k0 w =>
      by_cases hk : k0 = k
      · subst hk
        have he : alookup ((k0, w) :: rest) k0 = some w := by simp [alookup]
        rw [he, Option.some.injEq] at h
        rw [← h]
        simp
      · simp only [alookup, if_neg hk] at h
        exact List.mem_cons_of_mem _ (ih h)

theorem length_filter_imp {l : List String} {p q : String → Bool}
    (h : ∀ x, p x = true → q x = true) :
    (l.filter p).length ≤ (l.filter q).length := by
  induction l with
  | nil => exact Nat.le_refl 0
  | cons b t ih =>
    rw [List.filter_cons, List.filter_cons]
    cases hp : p b with
    | false =>
      rw [if_neg (by simp [hp])]
      cases hq : q b with
      | false => rw [if_neg (by simp [hq])]; exact ih
      | true => rw [if_pos (by simp [hq])]; exact Nat.le_succ_of_le ih
    | true =>
      rw [if_pos (by simp [hp]), if_pos (by simp [h b hp])]
      simpa using ih

theorem unwritten_mono {reg : Registry} {w w2 : List String}
    (h : ∀ x ∈ w, x ∈ w2) : unwrittenCount reg w2 ≤ unwrittenCount reg w := by
  refine length_filter_imp ?_
  intro x hx
  rw [decide_eq_true_eq] at hx ⊢
  exact fun hc => hx (h x hc)

theorem unwritten_le (reg : Registry) (w : List String) :
    unwrittenCount reg w ≤ reg.length := by
  calc unwrittenCount reg w ≤ (keysOf reg).length := List.length_filter_le _ _
  _ = reg.length := by simp [keysOf]

theorem filter_unwritten_cons {l w : List String} {cn : String} (hnd : l.Nodup)
    (hk : cn ∈ l) (hw : cn ∉ w) :
    (l.filter (fun k => decide (k ∉ cn :: w))).length + 1 =
      (l.filter (fun k => decide (k ∉ w))).length := by
  induction l with
  | nil => simp at hk
  | cons b t ih =>
    rw [List.nodup_cons] at hnd
    rw [List.filter_cons, List.filter_cons]
    by_cases hb : b = cn
    · subst hb
      rw [if_neg (by simp), if_pos (by simp [hw])]
      have ht : List.filter (fun k => decide (k ∉ b :: w)) t =
          List.filter (fun k => decide (k ∉ w)) t := by
        refine List.filter_congr ?_
        intro x hx
        have hxb : x ≠ b := fun hc => hnd.1 (hc ▸ hx)
        exact decide_eq_decide.mpr (by simp [hxb])
      rw [ht]
      simp
    · have hkt : cn ∈ t := by
        rcases List.mem_cons.mp hk with h1 | h1
        · exact absurd h1.symm hb
        · exact h1
      by_cases hbw : b ∈ w
      · rw [if_neg (by simp [hbw]), if_neg (by simp [hbw])]
        exact ih hnd.2 hkt
      · rw [if_pos (by simp [hb, hbw]), if_pos (by simp [hbw])]
        simp only [List.length_cons]
        have := ih hnd.2 hkt
        omega

theorem unwritten_cons {reg : Registry} {w : List String} {cn : String}
    (hnd : (keysOf reg).Nodup) (hk : cn ∈ keysOf reg) (hw : cn ∉ w) :
    unwrittenCount reg (cn :: w) + 1 = unwrittenCount reg w :=
  filter_unwritten_cons hnd hk hw

/-- Induction statement for `writeClassAux` at a given fuel. -/
def MCstmt (reg : Registry) (fuel : Nat) : Prop :=
  ∀ (c : ClassData) (s : EmitState),
    RegWF reg →
    unwrittenCount reg s.written + 1 ≤ fuel →
    alookup reg c.class_name = some c →
    GoodS reg s →
    (∀ n, n ∈ s.written → n ∉ s.out →
      Relation.ReflTransGen (edgeR reg) n c.class_name) →
    GoodS reg (writeClassAux reg fuel c s) ∧
    PostS s (writeClassAux reg fuel c s) ∧
    (c.class_name ∈ (writeClassAux reg fuel c s).out ∨
      (c.class_name ∈ s.written ∧ c.class_name ∉ s.out))

/-- Induction statement for the dependency loop at a given inner fuel. -/
def MDstmt (reg : Registry) (fuel : Nat) : Prop :=
  ∀ (ds : List String) (s : EmitState) (cn : String),
    RegWF reg →
    unwrittenCount reg s.written + 1 ≤ fuel →
    (∀ d ∈ ds, d ∈ keysOf reg → edgeR reg cn d) →
    GoodS reg s →
    (∀ n, n ∈ s.written → n ∉ s.out → Relation.ReflTransGen (edgeR reg) n cn) →
    GoodS reg (depsFold reg (fun cd st => writeClassAux reg fuel cd st) ds s) ∧
    PostS s (depsFold reg (fun cd st => writeClassAux reg fuel cd st) ds s) ∧
    (∀ d ∈ ds, d ∈ keysOf reg →
      (d ∈ (depsFold reg (fun cd st => writeClassAux reg fuel cd st) ds s).out ∨
        (d ∈ s.written ∧ d ∉ s.out)))

theorem mcZero (reg : Registry) : MCstmt reg 0 := by
  intro c s hwf hfuel
  exact absurd hfuel (Nat.not_succ_le_zero _)

theorem mdOf {reg : Registry} {fuel : Nat} (hmc : MCstmt reg fuel) : MDstmt reg fuel := by
  intro ds
  induction ds with
  | nil =>
    intro s cn hwf hfuel hds hgood hstk
    refine ⟨?_, ?_, ?_⟩
    · simpa [depsFold] using hgood
    · simpa [depsFold] using postS_refl s
    · simp
  | cons d rest ih =>
    intro s cn hwf hfuel hds hgood hstk
    cases hl : alookup reg d with
    | none =>
      have heq : depsFold reg (fun cd st => writeClassAux reg fuel cd st) (d :: rest) s =
          depsFold reg (fun cd st => writeClassAux reg fuel cd st) rest s := by
        simp [depsFold, hl]
      rw [heq]
      have hrec := ih s cn hwf hfuel (fun d2 hd2 => hds d2 (List.mem_cons_of_mem d hd2))
        hgood hstk
      refine ⟨hrec.1, hrec.2.1, ?_⟩
      intro d2 hd2 hdk
      rcases List.mem_cons.mp hd2 with h1 | h1
      · subst h1
        obtain ⟨v, hv⟩ := alookup_some_of_mem_keys hdk
        rw [hv] at hl
        cases hl
      · exact hrec.2.2 d2 h1 hdk
    | some cd =>
      have hcdn : cd.class_name = d := by
        have := hwf.2 (d, cd) (mem_of_alookup_some hl)
        simpa using this
      have hdk : d ∈ keysOf reg := mem_keys_of_alookup_some hl
      have hedge : edgeR reg cn d := hds d (by simp) hdk
      have heq : depsFold reg (fun cd2 st => writeClassAux reg fuel cd2 st) (d :: rest) s =
          depsFold reg (fun cd2 st => writeClassAux reg fuel cd2 st) rest
            (writeClassAux reg fuel cd s) := by
        simp [depsFold, hl]
      rw [heq]
      have hstk2 : ∀ n, n ∈ s.written → n ∉ s.out →
          Relation.ReflTransGen (edgeR reg) n cd.class_name := by
        intro n hn1 hn2
        rw [hcdn]
        exact Relation.ReflTransGen.tail (hstk n hn1 hn2) hedge
      have hc := hmc cd s hwf hfuel (by rw [hcdn]; exact hl) hgood hstk2
      obtain ⟨hgood1, hpost1, hcomp1⟩ := hc
      have hfuel2 : unwrittenCount reg (writeClassAux reg fuel cd s).written + 1 ≤ fuel := by
        have hm := @unwritten_mono reg _ _ hpost1.1
        omega
      have hstk3 : ∀ n, n ∈ (writeClassAux reg fuel cd s).written →
          n ∉ (writeClassAux reg fuel cd s).out →
          Relation.ReflTransGen (edgeR reg) n cn := by
        intro n hn1 hn2
        have := (hpost1.2.2 n).mp ⟨hn1, hn2⟩
        exact hstk n this.1 this.2
      have hrec := ih (writeClassAux reg fuel cd s) cn hwf hfuel2
        (fun d2 hd2 => hds d2 (List.mem_cons_of_mem d hd2)) hgood1 hstk3
      refine ⟨hrec.1, postS_trans hpost1 hrec.2.1, ?_⟩
      intro d2 hd2 hdk2
      rcases List.mem_cons.mp hd2 with h1 | h1
      · subst h1
        rcases hcomp1 with h2 | h2
        · left
          obtain ⟨t, ht⟩ := hrec.2.1.2.1
          rw [ht]
          rw [hcdn] at h2
          exact List.mem_append_left _ h2
        · right
          rw [hcdn] at h2
          exact h2
      · rcases hrec.2.2 d2 h1 hdk2 with h2 | h2
        · exact Or.inl h2
        · right
          exact (hpost1.2.2 d2).mp h2

theorem mcSucc {reg : Registry} {fuel : Nat} (hmd : MDstmt reg fuel) :
    MCstmt reg (fuel + 1) := by
  intro c s hwf hfuel hlook hgood hstk
  by_cases hw : c.class_name ∈ s.written
  · have hcont : s.written.contains c.class_name = true := List.elem_iff.mpr hw
    have heq : writeClassAux reg (fuel + 1) c s = s := by
      simp only [writeClassAux, hcont, eq_self_iff_true, if_true]
    rw [heq]
    refine ⟨hgood, postS_refl s, ?_⟩
    by_cases ho : c.class_name ∈ s.out
    · exact Or.inl ho
    · exact Or.inr ⟨hw, ho⟩
  · have hcont : s.written.contains c.class_name = false := by
      cases hc : s.written.contains c.class_name
      · rfl
      · exact absurd (List.elem_iff.mp hc) hw
    have hkey : c.class_name ∈ keysOf reg := mem_keys_of_alookup_some hlook
    have hnotout : c.class_name ∉ s.out := fun hc => hw (hgood.2.1 _ hc)
    have heq : writeClassAux reg (fuel + 1) c s =
        { written := (depsFold reg (fun cd st => writeClassAux reg fuel cd st)
            c.class_dependencies ⟨c.class_name :: s.written, s.out⟩).written,
          out := (depsFold reg (fun cd st => writeClassAux reg fuel cd st)
            c.class_dependencies ⟨c.class_name :: s.written, s.out⟩).out ++
            [c.class_name] } := by
      simp only [writeClassAux, hcont, Bool.false_eq_true, if_false]
    have hfb : unwrittenCount reg (c.class_name :: s.written) + 1 ≤ fuel := by
      have := unwritten_cons hwf.1 hkey hw
      omega
    have hgood1 : GoodS reg (⟨c.class_name :: s.written, s.out⟩ : EmitState) := by
      refine ⟨hgood.1, ?_, ?_, ?_⟩
      · intro n hn
        exact List.mem_cons_of_mem _ (hgood.2.1 n hn)
      · intro n hn
        rcases List.mem_cons.mp hn with h1 | h1
        · rw [h1]; exact hkey
        · exact hgood.2.2.1 n h1
      · exact hgood.2.2.2
    have hstk1 : ∀ n, n ∈ c.class_name :: s.written → n ∉ s.out →
        Relation.ReflTransGen (edgeR reg) n c.class_name := by
      intro n hn1 hn2
      rcases List.mem_cons.mp hn1 with h1 | h1
      · rw [h1]
      · exact hstk n h1 hn2
    have hds : ∀ d ∈ c.class_dependencies, d ∈ keysOf reg →
        edgeR reg c.class_name d := fun d hd hk => ⟨c, hlook, hd, hk⟩
    obtain ⟨hgood2, hpost2, hdone⟩ :=
      hmd c.class_dependencies ⟨c.class_name :: s.written, s.out⟩ c.class_name
        hwf hfb hds hgood1 hstk1
    set s2 := depsFold reg (fun cd st => writeClassAux reg fuel cd st)
      c.class_dependencies ⟨c.class_name :: s.written, s.out⟩ with hs2
    have hcnw2 : c.class_name ∈ s2.written ∧ c.class_name ∉ s2.out :=
      (hpost2.2.2 c.class_name).mpr ⟨by simp, hnotout⟩
    rw [heq]
    refine ⟨?_, ?_, ?_⟩
    · refine ⟨?_, ?_, ?_, ?_⟩
      · rw [List.nodup_append]
        refine ⟨hgood2.1, List.nodup_singleton _, ?_⟩
        intro a ha hb
        rw [List.mem_singleton] at hb
        rw [hb] at ha
        exact hcnw2.2 ha
      · intro n hn
        rcases List.mem_append.mp hn with h1 | h1
        · exact hgood2.2.1 n h1
        · rw [List.mem_singleton] at h1
          rw [h1]
          exact hcnw2.1
      · exact hgood2.2.2.1
      · intro x hx d hedge
        rcases List.mem_append.mp hx with h1 | h1
        · rcases hgood2.2.2.2 x h1 d hedge with h2 | h2
          · exact Or.inl (beforeIn_append h2 _ h1)
          · exact Or.inr h2
        · rw [List.mem_singleton] at h1
          subst h1
          obtain ⟨cls, hcls, hdin, hdk⟩ := hedge
          rw [hlook, Option.some.injEq] at hcls
          rw [← hcls] at hdin
          rcases hdone d hdin hdk with h2 | h2
          · exact Or.inl (beforeIn_append_new h2 hcnw2.2)
          · rcases List.mem_cons.mp h2.1 with h3 | h3
            · rw [h3]
              exact Or.inr Relation.ReflTransGen.refl
            · exact Or.inr (hstk d h3 h2.2)
    · refine ⟨?_, ?_, ?_⟩
      · intro n hn
        exact hpost2.1 n (List.mem_cons_of_mem _ hn)
      · obtain ⟨t, ht⟩ := hpost2.2.1
        exact ⟨t ++ [c.class_name], by rw [ht]; simp⟩
      · intro n
        constructor
        · rintro ⟨hn1, hn2⟩
          have hn3 : n ∉ s2.out := fun hc => hn2 (List.mem_append_left _ hc)
          have hn4 : n ≠ c.class_name := by
            intro hc
            exact hn2 (by rw [hc]; simp)
          have := (hpost2.2.2 n).mp ⟨hn1, hn3⟩
          rcases List.mem_cons.mp this.1 with h1 | h1
          · exact absurd h1 hn4
          · exact ⟨h1, this.2⟩
        · rintro ⟨hn1, hn2⟩
          have hn4 : n ≠ c.class_name := fun hc => hw (hc ▸ hn1)
          have := (hpost2.2.2 n).mpr ⟨List.mem_cons_of_mem _ hn1, hn2⟩
          refine ⟨this.1, ?_⟩
          intro hc
          rcases List.mem_append.mp hc with h1 | h1
          · exact this.2 h1
          · rw [List.mem_singleton] at h1
            exact hn4 h1
    · left
      simp

theorem emitMC (reg : Registry) : ∀ fuel, MCstmt reg fuel := by
  intro fuel
  induction fuel with
  | zero => exact mcZero reg
  | succ fuel ih => exact mcSucc (mdOf ih)

/-- Between top-level `write` iterations the written set and the rendered
set coincide: nothing is ever left in progress. -/
def TopInv (reg : Registry) (s : EmitState) : Prop :=
  GoodS reg s ∧ ∀ n, n ∈ s.written ↔ n ∈ s.out

theorem writeAll_post (reg : Registry) (hwf : RegWF reg) :
    ∀ (rest : List (String × ClassData)) (s : EmitState),
    TopInv reg s →
    (∀ p ∈ rest, p ∈ reg) →
    TopInv reg (writeAll reg rest s) ∧
    (∃ t, (writeAll reg rest s).out = s.out ++ t) ∧
    (∀ p ∈ rest, p.1 ∈ (writeAll reg rest s).out) := by
  intro rest
  induction rest with
  | nil =>
    intro s hinv hmem
    exact ⟨hinv, ⟨[], by simp [writeAll]⟩, by simp⟩
  | cons p rest ih =>
    intro s hinv hmem
    obtain ⟨k, c⟩ := p
    have heq : writeAll reg ((k, c) :: rest) s =
        writeAll reg rest (writeClassAux reg (reg.length + 1) c s) := rfl
    rw [heq]
    have hpair : (k, c) ∈ reg := hmem (k, c) (by simp)
    have hkc : c.class_name = k := hwf.2 (k, c) hpair
    have hlook : alookup reg c.class_name = some c := by
      rw [hkc]
      exact alookup_of_mem_nodup hwf.1 hpair
    have hfuel : unwrittenCount reg s.written + 1 ≤ reg.length + 1 :=
      Nat.succ_le_succ (unwritten_le reg s.written)
    have hstk : ∀ n, n ∈ s.written → n ∉ s.out →
        Relation.ReflTransGen (edgeR reg) n c.class_name := by
      intro n h1 h2
      exact absurd ((hinv.2 n).mp h1) h2
    obtain ⟨hg1, hp1, hc1⟩ := emitMC reg (reg.length + 1) c s hwf hfuel hlook hinv.1 hstk
    have hinv1 : TopInv reg (writeClassAux reg (reg.length + 1) c s) := by
      refine ⟨hg1, fun n => ⟨?_, fun h => hg1.2.1 n h⟩⟩
      intro hn
      by_contra hno
      have h2 := (hp1.2.2 n).mp ⟨hn, hno⟩
      exact h2.2 ((hinv.2 n).mp h2.1)
    have hrec := ih _ hinv1 (fun q hq => hmem q (List.mem_cons_of_mem _ hq))
    have hkout : k ∈ (writeClassAux reg (reg.length + 1) c s).out := by
      rcases hc1 with h1 | h1
      · rw [← hkc]
        exact h1
      · exact absurd ((hinv.2 _).mp h1.1) h1.2
    refine ⟨hrec.1, ?_, ?_⟩
    · obtain ⟨t1, ht1⟩ := hp1.2.1
      obtain ⟨t2, ht2⟩ := hrec.2.1
      exact ⟨t1 ++ t2, by rw [ht2, ht1, List.append_assoc]⟩
    · intro q hq
      rcases List.mem_cons.mp hq with h1 | h1
      · rw [h1]
        obtain ⟨t2, ht2⟩ := hrec.2.1
        rw [ht2]
        exact List.mem_append_left _ hkout
      · exact hrec.2.2 q h1

theorem emitNames_facts (reg : Registry) (hwf : RegWF reg) :
    (emitNames reg).Nodup ∧ (∀ k, k ∈ emitNames reg ↔ k ∈ keysOf reg) ∧
    (∀ x ∈ emitNames reg, ∀ d, edgeR reg x d →
      beforeIn (emitNames reg) d x ∨ Relation.ReflTransGen (edgeR reg) d x) := by
  have h0 : TopInv reg ⟨[], []⟩ :=
    ⟨⟨List.nodup_nil, by simp, by simp, by simp⟩, by simp⟩
  obtain ⟨hinv, hext, hcompl⟩ := writeAll_post reg hwf reg ⟨[], []⟩ h0 (fun p hp => hp)
  refine ⟨hinv.1.1, ?_, hinv.1.2.2.2⟩
  intro k
  constructor
  · intro hk
    exact hinv.1.2.2.1 k (hinv.1.2.1 k hk)
  · intro hk
    obtain ⟨v, hv⟩ := alookup_some_of_mem_keys hk
    exact hcompl (k, v) (mem_of_alookup_some hv)

theorem emit_count (reg : Registry) (hwf : RegWF reg) (k : String) :
    (emitNames reg).count k = if k ∈ keysOf reg then 1 else 0 := by
  obtain ⟨hnd, hiff, -⟩ := emitNames_facts reg hwf
  by_cases hk : k ∈ keysOf reg
  · rw [if_pos hk]
    have hmem : k ∈ emitNames reg := (hiff k).mpr hk
    have h1 : (emitNames reg).count k ≤ 1 := List.nodup_iff_count_le_one.mp hnd k
    have h2 : 0 < (emitNames reg).count k := List.count_pos_iff.mpr hmem
    omega
  · rw [if_neg hk]
    exact List.count_eq_zero.mpr (fun hc => hk ((hiff k).mp hc))

theorem emit_order (reg : Registry) (hwf : RegWF reg) (hacyc : AcyclicReg reg) :
    ∀ k c, (k, c) ∈ reg → ∀ d ∈ c.class_dependencies, d ∈ keysOf reg →
      beforeIn (emitNames reg) d k := by
  intro k c hkc d hd hdk
  have hlook : alookup reg k = some c := alookup_of_mem_nodup hwf.1 hkc
  have hedge : edgeR reg k d := ⟨c, hlook, hd, hdk⟩
  obtain ⟨hnd, hiff, hord⟩ := emitNames_facts reg hwf
  have hkout : k ∈ emitNames reg :=
    (hiff k).mpr (by simpa [keysOf] using List.mem_map_of_mem Prod.fst hkc)
  rcases hord k hkout d hedge with h1 | h1
  · exact h1
  · exact absurd h1 (hacyc k d hedge)

/-! ## Support lemmas for the argument-sorting claims -/

theorem resolveOrder_ok {arguments : List MethodArgument} :
    ∀ {order : List String},
    (∀ n ∈ order, n ∈ arguments.map (fun a => a.name)) →
    ∃ front, resolveOrder arguments order = .ok front ∧
      front.map (fun a => a.name) = order := by
  intro order
  induction order with
  | nil => exact fun _ => ⟨[], rfl, rfl⟩
  | cons n rest ih =>
    intro h
    have hn : n ∈ arguments.map (fun a => a.name) := h n (by simp)
    obtain ⟨a, ha, hname⟩ := List.mem_map.mp hn
    have hrev : ∃ x, arguments.reverse.find? (fun x => x.name == n) = some x := by
      have : (arguments.reverse.find? (fun x => x.name == n)).isSome = true := by
        rw [List.find?_isSome]
        exact ⟨a, List.mem_reverse.mpr ha, by simp [hname]⟩
      exact Option.isSome_iff_exists.mp this
    obtain ⟨x, hx⟩ := hrev
    have hxname : x.name = n := by
      have := List.find?_some hx
      simpa using this
    obtain ⟨front, hfront, hmap⟩ := ih (fun m hm => h m (List.mem_cons_of_mem _ hm))
    refine ⟨x :: front, ?_, by simp [hxname, hmap]⟩
    simp only [resolveOrder, hx, orError, exbind_eq_ok, Except.ok.injEq]
    exact ⟨x, rfl, front, hfront, rfl⟩

theorem resolveOrder_fails {arguments : List MethodArgument} :
    ∀ {order : List String} {n : String},
    n ∈ order → n ∉ arguments.map (fun a => a.name) →
    ∃ e, resolveOrder arguments order = .error e := by
  intro order
  induction order with
  | nil => intro n h; simp at h
  | cons m rest ih =>
    intro n hn hnot
    cases hm : arguments.reverse.find? (fun x => x.name == m) with
    | none =>
      refine ⟨"KeyError: " ++ m, ?_⟩
      simp [resolveOrder, hm, orError, Bind.bind, Except.bind]
    | some x =>
      have hxname : x.name = m := by
        have := List.find?_some hm
        simpa using this
      have hxmem : x ∈ arguments := List.mem_reverse.mp (List.mem_of_find?_eq_some hm)
      have hnm : n ≠ m := by
        intro hc
        exact hnot (by
          rw [hc, ← hxname]
          exact List.mem_map_of_mem _ hxmem)
      have hrest : n ∈ rest := by
        rcases List.mem_cons.mp hn with h1 | h1
        · exact absurd h1 hnm
        · exact h1
      obtain ⟨e, he⟩ := ih hrest hnot
      refine ⟨e, ?_⟩
      simp [resolveOrder, hm, orError, he, Bind.bind, Except.bind]

theorem loadElems_length : ∀ {l : List (String × String)} {r : List EnumClassElement},
    loadElems l = .ok r → r.length = l.length := by
  intro l
  induction l with
  | nil =>
    intro r h
    simp only [loadElems, Except.ok.injEq] at h
    rw [← h]
    rfl
  | cons p rest ih =>
    intro r h
    obtain ⟨v, a⟩ := p
    simp only [loadElems, exbind_eq_ok, Except.ok.injEq] at h
    obtain ⟨e, he, tail, htail, hr⟩ := h
    rw [← hr]
    simp [ih htail]

/-! ## Concrete documents used by the claim checks -/

/-- Two schemas that reference each other: a dependency cycle. -/
def c1CycleDoc : Dict :=
  [("schemas", .d
      [("A", .d [("properties", .d [("b", .d [("$ref", .s "B"), ("description", .s "d")])])]),
       ("B", .d [("properties", .d [("a", .d [("$ref", .s "A"), ("description", .s "d")])])])]),
   ("id", .s "x:v1"),
   ("resources", .d [])]

/-- One schema referencing another, no cycle. -/
def c1WitnessDoc : Dict :=
  [("schemas", .d
      [("A", .d [("properties", .d [("p", .d [("$ref", .s "B"), ("description", .s "d")])])]),
       ("B", .d [])]),
   ("id", .s "a:v1"),
   ("resources", .d [])]

/-- Diamond dependencies: A refers to B and C, both refer to D. -/
def c2WitnessDoc : Dict :=
  [("schemas", .d
      [("A", .d [("properties", .d
          [("b", .d [("$ref", .s "B"), ("description", .s "d")]),
           ("c", .d [("$ref", .s "C"), ("description", .s "d")])])]),
       ("B", .d [("properties", .d [("x", .d [("$ref", .s "D"), ("description", .s "d")])])]),
       ("C", .d [("properties", .d [("x", .d [("$ref", .s "D"), ("description", .s "d")])])]),
       ("D", .d [])]),
   ("id", .s "demo:v1"),
   ("resources", .d [])]

/-- A nested resource: `r1` contains a child resource `r2`. -/
def c6NestedDoc : Dict :=
  [("schemas", .d []),
   ("id", .s "x:v1"),
   ("resources", .d [("r1", .d [("resources", .d [("r2", .d [])])])])]

/-- One top-level resource with an empty body. -/
def c6WitnessDoc : Dict :=
  [("schemas", .d []),
   ("id", .s "a:b"),
   ("resources", .d [("r", .d [])])]

/-- A minimal document with one empty schema. -/
def c7Doc : Dict :=
  [("schemas", .d [("W", .d [])]),
   ("id", .s "d:v1"),
   ("resources", .d [])]

/-- A minimal document with no schemas. -/
def c7WitnessDoc : Dict :=
  [("schemas", .d []),
   ("id", .s "a:b"),
   ("resources", .d [])]

/-- An operation whose `parameterOrder` names `p9`, which is not among its
declared parameters. -/
def c9Doc : Dict :=
  [("schemas", .d []),
   ("id", .s "a:v1"),
   ("resources", .d [("r", .d [("methods", .d [("m", .d
      [("description", .s "d"),
       ("parameters", .d [("x", .d [("type", .s "string")])]),
       ("parameterOrder", .l ["p9"])])])])])]

/-- Two operations each declaring an enum-restricted parameter named
`alt`, with different allowed values. -/
def c10Doc : Dict :=
  [("schemas", .d []),
   ("id", .s "s:v1"),
   ("resources", .d [("r", .d [("methods", .d
      [("m1", .d [("description", .s "d1"),
         ("parameters", .d [("alt", .d [("type", .s "string"), ("enum", .l ["x"]),
           ("enumDescriptions", .l ["dx"])])])]),
       ("m2", .d [("description", .s "d2"),
         ("parameters", .d [("alt", .d [("type", .s "string"), ("enum", .l ["y"]),
           ("enumDescriptions", .l ["dy"])])])])])])])]

/-! ## Claim C1 -/

/-- C1 counterexample: in `c1CycleDoc` the schemas `A` and `B` reference
each other.  `A` is a dependency of `B` and both are in the Registry, yet
the emitted stream is `[B, A, XV1]`: `A`'s declaration appears strictly
after `B`'s, so the claimed ordering fails on a cyclic document. -/
theorem c1_counterexample :
    ((buildFile c1CycleDoc).toOption.map (fun p =>
      (keysOf p.1.classes,
       (alookup p.1.classes "B").map (fun c => c.class_dependencies),
       emitNames p.1.classes,
       decide (beforeIn (emitNames p.1.classes) "A" "B")))) =
    some (["A", "B", "XV1"], some ["A"], ["B", "A", "XV1"], false) := rfl

/-- C1 (amended): for every document whose built Registry has an acyclic
registry-present dependency graph, every dependency D of a class C that is
present in the Registry is declared strictly before C in the emitted
output stream.  (On a cyclic graph the emitter breaks the cycle by
rendering the class that closes it after its dependent.) -/
theorem c1_amended_dependency_order {doc : Dict} {fm : FileModel} {doc2 : Dict}
    (h : buildFile doc = .ok (fm, doc2)) (hacyc : AcyclicReg fm.classes) :
    ∀ k c, (k, c) ∈ fm.classes → ∀ d ∈ c.class_dependencies, d ∈ keysOf fm.classes →
      beforeIn (emitNames fm.classes) d k :=
  emit_order fm.classes (buildFile_wf h) hacyc

def c1ClassA : ClassData :=
  { class_name := "A"
    class_attributes := [{ name := "p", value := none, type := "B", annotations := "d" }]
    class_dependencies := ["B"] }

def c1WitnessReg : Registry :=
  [("A", c1ClassA), ("B", emptyClass "B"), ("AV1", emptyClass "AV1")]

theorem c1WitnessReg_edges {x y : String} (h : edgeR c1WitnessReg x y) :
    x = "A" ∧ y = "B" := by
  obtain ⟨cls, hcls, hdep, hk⟩ := h
  by_cases h1 : "A" = x
  · subst h1
    simp only [c1WitnessReg, alookup, eq_self_iff_true, if_true, Option.some.injEq] at hcls
    rw [← hcls] at hdep
    simp only [c1ClassA] at hdep
    rcases List.mem_singleton.mp hdep with rfl
    exact ⟨rfl, rfl⟩
  · by_cases h2 : "B" = x
    · subst h2
      simp only [c1WitnessReg, alookup, if_neg h1, eq_self_iff_true, if_true,
        Option.some.injEq] at hcls
      rw [← hcls] at hdep
      simp [emptyClass] at hdep
    · by_cases h3 : "AV1" = x
      · subst h3
        simp only [c1WitnessReg, alookup, if_neg h1, if_neg h2, eq_self_iff_true, if_true,
          Option.some.injEq] at hcls
        rw [← hcls] at hdep
        simp [emptyClass] at hdep
      · simp only [c1WitnessReg, alookup, if_neg h1, if_neg h2, if_neg h3] at hcls
        cases hcls

theorem c1WitnessReg_acyclic : AcyclicReg c1WitnessReg := by
  intro a b hedge hrtg
  obtain ⟨ha, hb⟩ := c1WitnessReg_edges hedge
  subst ha
  subst hb
  rcases Relation.ReflTransGen.cases_head hrtg with h1 | ⟨c2, hc2, -⟩
  · exact absurd h1 (by decide)
  · exact absurd (c1WitnessReg_edges hc2).1 (by decide)

/-- C1 amended witness: on the acyclic document `c1WitnessDoc` the
dependency `B` of class `A` is declared before `A`. -/
theorem c1_amended_witness : beforeIn (emitNames c1WitnessReg) "B" "A" :=
  @c1_amended_dependency_order c1WitnessDoc ⟨c1WitnessReg, "a_v1.py"⟩
    [("id", .s "a:v1"), ("resources", .d [])]
    rfl c1WitnessReg_acyclic "A" c1ClassA (by decide) "B" (by decide) (by decide)

/-! ## Claim C2 -/

/-- C2: for every document the build accepts, each class name in the
Registry appears exactly once in the emitted stream of class
declarations, and no other name appears at all — regardless of diamond
dependencies, repeated dependency edges or cycles. -/
theorem c2_unique_emission {doc : Dict} {fm : FileModel} {doc2 : Dict}
    (h : buildFile doc = .ok (fm, doc2)) (k : String) :
    (emitNames fm.classes).count k = if k ∈ keysOf fm.classes then 1 else 0 :=
  emit_count fm.classes (buildFile_wf h) k

def c2ClassA : ClassData :=
  { class_name := "A"
    class_attributes := [{ name := "b", value := none, type := "B", annotations := "d" },
                         { name := "c", value := none, type := "C", annotations := "d" }]
    class_dependencies := ["B", "C"] }

def c2ClassB : ClassData :=
  { class_name := "B"
    class_attributes := [{ name := "x", value := none, type := "D", annotations := "d" }]
    class_dependencies := ["D"] }

def c2ClassC : ClassData :=
  { class_name := "C"
    class_attributes := [{ name := "x", value := none, type := "D", annotations := "d" }]
    class_dependencies := ["D"] }

def c2WitnessReg : Registry :=
  [("A", c2ClassA), ("B", c2ClassB), ("C", c2ClassC), ("D", emptyClass "D"),
   ("DemoV1", emptyClass "DemoV1")]

/-- C2 witness: in the diamond document `c2WitnessDoc`, the doubly
referenced class `D` is declared exactly once. -/
theorem c2_witness : (emitNames c2WitnessReg).count "D" = 1 := by
  have h := @c2_unique_emission c2WitnessDoc ⟨c2WitnessReg, "demo_v1.py"⟩
    [("id", .s "demo:v1"), ("resources", .d [])] rfl "D"
  rw [if_pos (by decide)] at h
  exact h

/-! ## Claim C3 -/

/-- C3: when an operation declares an explicit parameter order whose names
all occur among its parameters, the sorted argument list begins with
exactly those names in that sequence, followed by the remaining declared
arguments without a default value and then the remaining arguments with a
default value, each subgroup in declaration order. -/
theorem c3_explicit_parameter_order (arguments : List MethodArgument) (order : List String)
    (h : ∀ n ∈ order, n ∈ arguments.map (fun a => a.name)) :
    ∃ res, sort_arguments arguments order = .ok res ∧
      res.map (fun a => a.name) = order ++
        (arguments.filter (fun a => a.default_value == "" &&
          !(order.contains a.name))).map (fun a => a.name) ++
        (arguments.filter (fun a => !(a.default_value == "") &&
          !(order.contains a.name))).map (fun a => a.name) := by
  obtain ⟨front, hfront, hmap⟩ := resolveOrder_ok h
  refine ⟨front ++
    arguments.filter (fun a => a.default_value == "" && !(order.contains a.name)) ++
    arguments.filter (fun a => !(a.default_value == "") && !(order.contains a.name)),
    ?_, ?_⟩
  · exact (exbind_eq_ok _ _ _).mpr ⟨front, hfront, rfl⟩
  · rw [List.map_append, List.map_append, hmap]

def c3Args : List MethodArgument :=
  [{ name := "p1", default_value := "", annotation_type := "str", required := true },
   { name := "p2", default_value := "", annotation_type := "str", required := true },
   { name := "p3", default_value := "", annotation_type := "str", required := false },
   { name := "p4", default_value := "3", annotation_type := "int", required := false }]

/-- C3 witness: the spec's own example — explicit order `[p1, p2]` with
extra parameters `p3` (no default) and `p4` (with default) yields exactly
`p1, p2, p3, p4`. -/
theorem c3_witness :
    ∃ res, sort_arguments c3Args ["p1", "p2"] = .ok res ∧
      res.map (fun a => a.name) = ["p1", "p2", "p3", "p4"] := by
  obtain ⟨res, h1, h2⟩ := c3_explicit_parameter_order c3Args ["p1", "p2"] (by decide)
  exact ⟨res, h1, by rw [h2]; rfl⟩

/-! ## Claim C4 -/

/-- C4 counterexample: a schema property node without a `description` key
and an operation node without a `description` key both abort class
construction with an uncaught KeyError — the missing key is not defaulted. -/
theorem c4_counterexample :
    buildClass "X" [("properties", .d [("p", .d [("type", .s "string")])])] [] =
      .error "KeyError: description" ∧
    buildClass "Y" [("methods", .d [("m", .d [("response", .s "None")])])] [] =
      .error "KeyError: description" := ⟨rfl, rfl⟩

/-- C4 (amended): absent `parameters` and `parameterOrder` keys are
defaulted to empty and never cause an error — an operation node carrying
only a `description` builds fine — but `description` itself is mandatory
on schema properties and operation nodes: its absence raises an uncaught
KeyError. -/
theorem c4_amended :
    (∀ (cn mname desc : String) (file : Registry),
      ∃ r, buildClass cn [("methods", .d [(mname, .d [("description", .s desc)])])] file =
        .ok r) ∧
    (∀ (cn pname t : String) (file : Registry),
      buildClass cn [("properties", .d [(pname, .d [("type", .s t)])])] file =
        .error "KeyError: description") := by
  constructor
  · intro cn mname desc file
    exact ⟨_, rfl⟩
  · intro cn pname t file
    rfl

/-! ## Claim C5 -/

/-- C5 counterexample: for the class `Widget` with the enum property
`color`, the synthesized enumeration is registered as `EnumWidgetColor`,
not as the claimed `WidgetColor` (enclosing class name followed by the
capitalized property name). -/
theorem c5_counterexample :
    ((apLoop (emptyClass "Widget") []
        [("color", .d [("type", .s "string"), ("enum", .l ["A"]),
          ("enumDescriptions", .l ["da"]), ("description", .s "dc")])]).toOption.map
      (fun r => keysOf r.2)) = some ["EnumWidgetColor"] ∧
    "EnumWidgetColor" ≠ "WidgetColor" := ⟨rfl, by decide⟩

/-- C5 (amended): a schema property with a restricted value set
synthesizes an enumeration registered under the fixed prefix `Enum`
followed by the capitalization of (enclosing class name ++ capitalized
property name); a method parameter with a restricted value set synthesizes
one registered under `Enum` followed by the capitalized parameter name.
The same name is recorded as a dependency of the introducing class. -/
theorem c5_amended :
    (∀ (cn p dsc : String),
      ((apLoop (emptyClass cn) []
          [(p, .d [("type", .s "string"), ("enum", .l ["A"]),
            ("enumDescriptions", .l ["da"]), ("description", .s dsc)])]).toOption.map
        (fun r => (keysOf r.2, r.1.class_dependencies))) =
      some (["Enum" ++ class_capitalize (cn ++ class_capitalize p)],
            ["Enum" ++ class_capitalize (cn ++ class_capitalize p)])) ∧
    (∀ (q : String),
      ((load_method_arguments (emptyClass "C") []
          [("parameters", .d [(q, .d [("type", .s "string"), ("enum", .l ["A"]),
            ("enumDescriptions", .l ["da"])])])]).toOption.map
        (fun r => (keysOf r.2.2, r.2.1.class_dependencies,
          r.1.map (fun a => a.annotation_type)))) =
      some (["Enum" ++ class_capitalize q], ["Enum" ++ class_capitalize q],
            ["Enum" ++ class_capitalize q])) := by
  constructor
  · intro cn p dsc
    rfl
  · intro q
    rfl

/-! ## Claim C6 -/

/-- C6 counterexample: in `c6NestedDoc` the nested resource `r2` (inside
`r1`) gets its zero-argument accessor method and the dependency
`ResourceR2` on `ResourceR1`, but `ResourceR2` is never registered in the
Registry — the registration claimed for every resources entry only
happens for top-level resources. -/
theorem c6_counterexample :
    ((buildFile c6NestedDoc).toOption.map (fun p =>
      (keysOf p.1.classes,
       (alookup p.1.classes "ResourceR1").map (fun c =>
         (c.class_dependencies,
          c.methods.map (fun m => (m.name, m.arguments.length, m.return_value)))),
       alookup p.1.classes "ResourceR2"))) =
    some (["XV1", "ResourceR1"],
          some (["ResourceR2"], [("r2", 0, "ResourceR2")]),
          none) := rfl

/-- C6 (amended): every resources entry encountered while building a
class appends a zero-argument method returning the resource's synthetic
class and records that name as a dependency; but only the document's
top-level resources are additionally registered as classes in the
Registry under their resource-qualified names (a nested resource node is
left unregistered, its dependency dangling). -/
theorem c6_amended :
    (∀ (c : ClassData) (rs : List (String × JVal)),
      (class_add_resources c rs).class_dependencies =
        c.class_dependencies ++ rs.map (fun p => resource_class_name p.1) ∧
      (class_add_resources c rs).methods.map
          (fun m => (m.name, m.arguments.length, m.return_value)) =
        c.methods.map (fun m => (m.name, m.arguments.length, m.return_value)) ++
          rs.map (fun p => (p.1, 0, resource_class_name p.1))) ∧
    (∀ (doc : Dict) (fm : FileModel) (doc2 : Dict) (rs : List (String × JVal)),
      buildFile doc = .ok (fm, doc2) → alookup doc "resources" = some (.d rs) →
      ∀ p ∈ rs, resource_class_name p.1 ∈ keysOf fm.classes) := by
  constructor
  · intro c rs
    induction rs generalizing c with
    | nil => exact ⟨by simp [class_add_resources], by simp [class_add_resources]⟩
    | cons p rest ih =>
      obtain ⟨rn, rJ⟩ := p
      constructor
      · simp only [class_add_resources]
        rw [(ih _).1]
        simp
      · simp only [class_add_resources]
        rw [(ih _).2]
        simp
  · intro doc fm doc2 rs h hres
    simp only [buildFile, exbind_eq_ok, Except.ok.injEq] at h
    obtain ⟨sJ, hsJ, sd, hsd, f1, hf1, idJ, hidJ, api, hapi, f2, hf2, rJ, hrJ, rd, hrd,
      f3, hf3, hfin⟩ := h
    rw [orError_eq_ok, alookup_eraseKey_ne doc (by decide), hres,
      Option.some.injEq] at hrJ
    rw [← hrJ] at hrd
    simp only [asDict, Except.ok.injEq] at hrd
    rw [← hrd] at hf3
    have hkeys := (fileAddResourcesLoop_reg _ _ _ hf3).2
    have hfst : ({ classes := f3, file_name := fileNameOf api } : FileModel) = fm :=
      congrArg Prod.fst hfin
    rw [← hfst]
    exact hkeys

def c6WitnessRoot : ClassData :=
  { class_name := "AB",
    methods := [{ name := "r", arguments := [], return_value := "ResourceR",
                  implementation := "...", description := none }],
    class_dependencies := ["ResourceR"] }

/-- C6 amended witness: the top-level resource `r` of `c6WitnessDoc` is
registered under `ResourceR`. -/
theorem c6_witness :
    resource_class_name "r" ∈
      keysOf [("AB", c6WitnessRoot), ("ResourceR", emptyClass "ResourceR")] :=
  c6_amended.2 c6WitnessDoc
    ⟨[("AB", c6WitnessRoot), ("ResourceR", emptyClass "ResourceR")], "a_b.py"⟩
    [("id", .s "a:b"), ("resources", .d [("r", .d [])])]
    [("r", .d [])] rfl rfl ("r", .d []) (by simp)

/-! ## Claim C7 -/

/-- C7 counterexample: the first pipeline run on `c7Doc` succeeds and
emits `[W, DV1]`, but it deletes the `schemas` key from the input
document, so the second run on the very same (mutated) document aborts
with `KeyError: schemas` instead of producing byte-identical output. -/
theorem c7_counterexample :
    ((pipeline c7Doc).toOption.map (fun p => (p.1, pipeline p.2))) =
      some (["W", "DV1"], .error "KeyError: schemas") := rfl

/-- C7 (amended): the pipeline is a deterministic function of the
document value — two runs on equal copies give equal output — but the
build mutates its input (it deletes the `schemas` section), so running the
pipeline again on the same document object always fails with
`KeyError: schemas`. -/
theorem c7_amended (doc : Dict) :
    (∀ r1 r2 : Except String (List String × Dict),
      pipeline doc = r1 → pipeline doc = r2 → r1 = r2) ∧
    (∀ (fm : FileModel) (doc2 : Dict), buildFile doc = .ok (fm, doc2) →
      buildFile doc2 = .error "KeyError: schemas") := by
  constructor
  · intro r1 r2 h1 h2
    rw [← h1, ← h2]
  · intro fm doc2 h
    simp only [buildFile, exbind_eq_ok, Except.ok.injEq] at h
    obtain ⟨sJ, hsJ, sd, hsd, f1, hf1, idJ, hidJ, api, hapi, f2, hf2, rJ, hrJ, rd, hrd,
      f3, hf3, hfin⟩ := h
    have hdoc2 : doc2 = eraseKey doc "schemas" := (congrArg Prod.snd hfin).symm
    rw [hdoc2]
    have hnone : alookup (eraseKey doc "schemas") "schemas" = none :=
      alookup_eraseKey_self doc "schemas"
    simp [buildFile, hnone, orError, Bind.bind, Except.bind]

/-- C7 amended witness. -/
theorem c7_witness :
    (pipeline c7WitnessDoc = pipeline c7WitnessDoc) ∧
    buildFile [("id", .s "a:b"), ("resources", .d [])] = .error "KeyError: schemas" :=
  ⟨(c7_amended c7WitnessDoc).1 _ _ rfl rfl,
   (c7_amended c7WitnessDoc).2 ⟨[("AB", emptyClass "AB")], "a_b.py"⟩
     [("id", .s "a:b"), ("resources", .d [])] rfl⟩

/-! ## Claim C8 -/

/-- C8: a node declaring both an `enum` value list and an
`enumDescriptions` list synthesizes an enumeration with exactly
`min |enum| |enumDescriptions|` elements: the zip silently drops values
beyond the shorter list instead of reporting an error. -/
theorem c8_enum_zip_truncation {argument_name : String} {ad : Dict} {vs ds : List String}
    {ec : ClassData}
    (hv : alookup ad "enum" = some (.l vs))
    (hd : alookup ad "enumDescriptions" = some (.l ds))
    (h : buildEnumClass argument_name ad = .ok ec) :
    ec.elements.length = min vs.length ds.length := by
  simp only [buildEnumClass, exbind_eq_ok, orError_eq_ok, Except.ok.injEq] at h
  obtain ⟨tJ, htJ, t, ht, sub, hsub, vJ, hvJ, vs2, hvs2, dJ, hdJ, ds2, hds2,
    elems, helems, hec⟩ := h
  rw [hv, Option.some.injEq] at hvJ
  rw [← hvJ] at hvs2
  simp only [asStrList, Except.ok.injEq] at hvs2
  rw [hd, Option.some.injEq] at hdJ
  rw [← hdJ] at hds2
  simp only [asStrList, Except.ok.injEq] at hds2
  rw [← hvs2, ← hds2] at helems
  have hlen := loadElems_length helems
  rw [← hec]
  simp only [hlen, List.length_zip]

def c8WitnessEnum : ClassData :=
  { class_name := "EnumP", isEnum := true, subclass := some "str"
    elements := [{ name := "A", value := "A", annotation := "x" }] }

/-- C8 witness: three allowed values and one description give one element. -/
theorem c8_witness : c8WitnessEnum.elements.length = min 3 1 :=
  @c8_enum_zip_truncation "p"
    [("type", .s "string"), ("enum", .l ["A", "B", "C"]), ("enumDescriptions", .l ["x"])]
    ["A", "B", "C"] ["x"] c8WitnessEnum rfl rfl rfl

/-! ## Claim C9 -/

/-- C9: a `parameterOrder` name that does not occur among the declared
parameters makes the argument sort fail with an uncaught lookup error (the
name is neither skipped nor appended), and a document containing such an
operation fails to build at all (`c9Doc` aborts with `KeyError: p9`). -/
theorem c9_unknown_order_name :
    (∀ (arguments : List MethodArgument) (order : List String) (n : String),
      n ∈ order → n ∉ arguments.map (fun a => a.name) →
      ∃ e, sort_arguments arguments order = .error e) ∧
    buildFile c9Doc = .error "KeyError: p9" := by
  constructor
  · intro arguments order n h1 h2
    obtain ⟨e, he⟩ := resolveOrder_fails h1 h2
    refine ⟨e, ?_⟩
    simp [sort_arguments, he, Bind.bind, Except.bind]
  · rfl

/-- C9 witness: ordering by the unknown name `zz` fails. -/
theorem c9_witness :
    ∃ e, sort_arguments
      [{ name := "x", default_value := "", annotation_type := "str", required := true }]
      ["zz"] = .error e :=
  c9_unknown_order_name.1 _ _ "zz" (by decide) (by decide)

/-! ## Claim C10 -/

/-- C10: registry insertion is last-wins — inserting under an existing
name replaces the earlier class and adds no key — and in `c10Doc` the two
method parameters named `alt`, both enum-restricted, collapse to the
single registry entry `EnumAlt` holding the most recently built class
(values `[y]`), which is declared exactly once in the output. -/
theorem c10_registry_last_wins :
    (∀ (reg : Registry) (k : String) (v1 v2 : ClassData),
      alookup (dinsert (dinsert reg k v1) k v2) k = some v2 ∧
      keysOf (dinsert (dinsert reg k v1) k v2) = keysOf (dinsert reg k v1)) ∧
    ((buildFile c10Doc).toOption.map (fun p =>
      (keysOf p.1.classes,
       (alookup p.1.classes "EnumAlt").map (fun c => c.elements.map (fun e => e.value)),
       (emitNames p.1.classes).count "EnumAlt")) =
      some (["SV1", "EnumAlt", "ResourceR"], some ["y"], 1)) := by
  constructor
  · intro reg k v1 v2
    exact ⟨alookup_dinsert_self _ _ _,
      keysOf_dinsert_of_mem v2 (mem_keys_dinsert_self reg k v1)⟩
  · rfl
